import Mathlib

/-!
Verification development for the pattern-based extraction engine of
`src/app.py` (clinical-record billing audit tool).

The Python functions under audit are shallowly embedded over `List Char`:

* `limpiar_texto`            — text normalizer (section 4 of app.py)
* `formatear_fecha`          — date re-formatter
* `calcular_dias_estancia`   — stay length in days
* `extraer_paciente_regex`, `extraer_servicios_regex`,
  `extraer_diagnosticos_regex`, the placeholder extractors, and
  `procesar_historia_regex`  — the regex extraction pipeline (section 6)

Python `re` semantics (Unicode whitespace classes, `str.splitlines`
boundaries, greedy/lazy quantifier behaviour of the concrete patterns in
the source, `datetime.strptime` field alternations) are modelled
explicitly; every recursive scanner uses structural recursion on an
explicit fuel argument equal to the input length so that all definitions
evaluate by `decide`/`rfl`.
-/

/-! ## Character classes (CPython semantics) -/

/-- Characters removed by the first step of `limpiar_texto`: the regex
class `[\x00-\x08\x0b\x0c\x0e-\x1f\x7f]`.  Note that tab (`\x09`),
newline (`\x0a`) and carriage return (`\x0d`) are not in the class. -/
def pyCtrlRemovable (c : Char) : Bool :=
  c.toNat ≤ 8 || c.toNat == 11 || c.toNat == 12 ||
  (14 ≤ c.toNat && c.toNat ≤ 31) || c.toNat == 127

/-- CPython `Py_UNICODE_ISSPACE` — the set matched by `\s` in `re`
(with `str` patterns), by `str.strip()` and by `str.isspace()`. -/
def pyIsSpace (c : Char) : Bool :=
  (9 ≤ c.toNat && c.toNat ≤ 13) ||
  (28 ≤ c.toNat && c.toNat ≤ 31) ||
  c.toNat == 32 || c.toNat == 0x85 || c.toNat == 0xa0 || c.toNat == 0x1680 ||
  (0x2000 ≤ c.toNat && c.toNat ≤ 0x200a) ||
  c.toNat == 0x2028 || c.toNat == 0x2029 || c.toNat == 0x202f ||
  c.toNat == 0x205f || c.toNat == 0x3000

/-- CPython `Py_UNICODE_ISLINEBREAK` — the line boundaries used by
`str.splitlines` (besides the combined boundary `\r\n`). -/
def pyIsBreak (c : Char) : Bool :=
  (10 ≤ c.toNat && c.toNat ≤ 13) ||
  (28 ≤ c.toNat && c.toNat ≤ 30) ||
  c.toNat == 0x85 || c.toNat == 0x2028 || c.toNat == 0x2029

theorem pyIsSpace_of_pyIsBreak {c : Char} (h : pyIsBreak c = true) :
    pyIsSpace c = true := by
  simp only [pyIsBreak, pyIsSpace, Bool.or_eq_true, Bool.and_eq_true,
    decide_eq_true_eq, beq_iff_eq] at h ⊢
  omega

theorem newline_not_removable : pyCtrlRemovable '\n' = false := by decide

/-! ## `limpiar_texto` — the text normalizer

Python source:
```
if not texto: return ""
texto = re.sub(r'[\x00-\x08\x0b\x0c\x0e-\x1f\x7f]', '', texto)
texto = re.sub(r'\n\s*\n', '\n', texto)
texto = '\n'.join(line.strip() for line in texto.splitlines())
return texto.strip()
```
-/

/-- Index of the last newline inside a character list (used to model the
greedy match of `\n\s*\n`: the quantifier `\s*` backtracks to the last
`\n` inside the maximal whitespace run). -/
def lastNlIdx : List Char → Option Nat
  | [] => none
  | c :: r =>
    match lastNlIdx r with
    | some k => some (k + 1)
    | none => if c == '\n' then some 0 else none

/-- One left-to-right pass of `re.sub(r'\n\s*\n', '\n', ·)`.  At each
`'\n'` the maximal following whitespace run is inspected; if it contains
a `'\n'` the greedy match ends at the last such `'\n'` and is replaced by
a single `'\n'`, and scanning resumes after the match.  Fuel-driven
structural recursion (each step consumes at least one character). -/
def collapseGo : Nat → List Char → List Char
  | 0, l => l
  | _ + 1, [] => []
  | fuel + 1, c :: rest =>
    if c == '\n' then
      match lastNlIdx (rest.takeWhile pyIsSpace) with
      | some k => '\n' :: collapseGo fuel (rest.drop (k + 1))
      | none => '\n' :: collapseGo fuel rest
    else c :: collapseGo fuel rest

def collapseBlank (l : List Char) : List Char := collapseGo l.length l

/-- `str.splitlines()`: split at every line-break character, with `\r\n`
counting as a single boundary and no empty final piece after a trailing
boundary. -/
def splitGo : Nat → List Char → List (List Char)
  | 0, _ => []
  | _ + 1, [] => []
  | fuel + 1, l =>
    let line := l.takeWhile (fun c => !pyIsBreak c)
    match l.dropWhile (fun c => !pyIsBreak c) with
    | [] => [line]
    | d :: r =>
      line :: splitGo fuel (if d == '\r' && r.head? == some '\n' then r.tail else r)

def splitlinesPy (l : List Char) : List (List Char) := splitGo l.length l

/-- `str.strip()`: drop Unicode whitespace from both ends. -/
def stripPy (l : List Char) : List Char :=
  ((l.dropWhile pyIsSpace).reverse.dropWhile pyIsSpace).reverse

/-- `'\n'.join(...)` over the line list. -/
def joinNl : List (List Char) → List Char
  | [] => []
  | [l] => l
  | l :: ls => l ++ '\n' :: joinNl ls

/-- Embedding of `limpiar_texto` (app.py lines 89–107). -/
def limpiar_texto ( texto : List Char) : List Char :=
  if texto = [] then []
  else
    let t1 := texto.filter (fun c => !pyCtrlRemovable c)
    let t2 := collapseBlank t1
    let t3 := joinNl ((splitlinesPy t2).map stripPy)
    stripPy t3

/-- The Python parameter is `Optional`-shaped in practice (`if not texto`
treats `None` like the empty string). -/
def limpiar_texto_opt : Option (List Char) → List Char
  | none => []
  | some t => limpiar_texto t

/-! ## Date handling — `datetime.strptime` / `strftime` model

Only the format strings that appear in the repository (and in the spec
scenario) are modelled: `"%d/%m/%Y"` (default input of `formatear_fecha`
and `calcular_dias_estancia`), `"%Y-%m-%d"` (default output of
`formatear_fecha`) and `"%Y-%m-%d %H:%M"` (admission/discharge stamps of
the stay-computation scenario).  CPython compiles each field to an
ordered regex alternation; candidates are tried depth-first with
backtracking, the match must consume the whole string, and only then is
the calendar date validated by the `datetime` constructor. -/

inductive Fmt
  | dmy
  | ymd
  | ymdHM
deriving DecidableEq

structure DateTime where
  year : Nat
  month : Nat
  day : Nat
  hour : Nat
  minute : Nat
deriving DecidableEq

def digitVal (c : Char) : Option Nat :=
  if c.isDigit then some (c.toNat - 48) else none

/-- Candidates of the `%d` field, regex `3[01]|[12]\d|0[1-9]|[1-9]`, in
alternation order; each candidate carries the unconsumed remainder. -/
def dayCands : List Char → List (Nat × List Char)
  | [] => []
  | [c] => if c.isDigit && c != '0' then [(c.toNat - 48, [])] else []
  | c :: c2 :: r =>
    (if c == '3' && (c2 == '0' || c2 == '1') then [(30 + (c2.toNat - 48), r)] else []) ++
    (if (c == '1' || c == '2') && c2.isDigit then
      [((c.toNat - 48) * 10 + (c2.toNat - 48), r)] else []) ++
    (if c == '0' && c2.isDigit && c2 != '0' then [(c2.toNat - 48, r)] else []) ++
    (if c.isDigit && c != '0' then [(c.toNat - 48, c2 :: r)] else [])

/-- Candidates of the `%m` field, regex `1[0-2]|0[1-9]|[1-9]`. -/
def monthCands : List Char → List (Nat × List Char)
  | [] => []
  | [c] => if c.isDigit && c != '0' then [(c.toNat - 48, [])] else []
  | c :: c2 :: r =>
    (if c == '1' && (c2 == '0' || c2 == '1' || c2 == '2') then
      [(10 + (c2.toNat - 48), r)] else []) ++
    (if c == '0' && c2.isDigit && c2 != '0' then [(c2.toNat - 48, r)] else []) ++
    (if c.isDigit && c != '0' then [(c.toNat - 48, c2 :: r)] else [])

/-- Candidates of the `%H` field, regex `2[0-3]|[0-1]\d|\d`. -/
def hourCands : List Char → List (Nat × List Char)
  | [] => []
  | [c] => if c.isDigit then [(c.toNat - 48, [])] else []
  | c :: c2 :: r =>
    (if c == '2' && (c2 == '0' || c2 == '1' || c2 == '2' || c2 == '3') then
      [(20 + (c2.toNat - 48), r)] else []) ++
    (if (c == '0' || c == '1') && c2.isDigit then
      [((c.toNat - 48) * 10 + (c2.toNat - 48), r)] else []) ++
    (if c.isDigit then [(c.toNat - 48, c2 :: r)] else [])

/-- Candidates of the `%M` field, regex `[0-5]\d|\d`. -/
def minuteCands : List Char → List (Nat × List Char)
  | [] => []
  | [c] => if c.isDigit then [(c.toNat - 48, [])] else []
  | c :: c2 :: r =>
    (if c.isDigit && c.toNat ≤ 53 && c2.isDigit then
      [((c.toNat - 48) * 10 + (c2.toNat - 48), r)] else []) ++
    (if c.isDigit then [(c.toNat - 48, c2 :: r)] else [])

/-- The `%Y` field, regex `\d\d\d\d` (exactly four digits). -/
def year4 : List Char → Option (Nat × List Char)
  | a :: b :: c :: d :: r =>
    match digitVal a, digitVal b, digitVal c, digitVal d with
    | some va, some vb, some vc, some vd =>
      some (va * 1000 + vb * 100 + vc * 10 + vd, r)
    | _, _, _, _ => none
  | _ => none

/-- A literal whitespace in a `strptime` format string is compiled to
`\s+`; the following fields of the formats in use start with a digit, so
the greedy maximal run is the unique viable split. -/
def ws1 (l : List Char) : Option (List Char) :=
  let w := l.takeWhile pyIsSpace
  if w.isEmpty then none else some (l.drop w.length)

def firstSome : List α → (α → Option β) → Option β
  | [], _ => none
  | a :: l, f =>
    match f a with
    | some b => some b
    | none => firstSome l f

/-- Purely textual match of `"%d/%m/%Y"` against the whole string. -/
def matchDMY (s : List Char) : Option (Nat × Nat × Nat) :=
  firstSome (dayCands s) fun dc =>
    match dc.2 with
    | '/' :: r2 =>
      firstSome (monthCands r2) fun mc =>
        match mc.2 with
        | '/' :: r4 =>
          match year4 r4 with
          | some (y, []) => some (dc.1, mc.1, y)
          | _ => none
        | _ => none
    | _ => none

/-- Purely textual match of `"%Y-%m-%d %H:%M"` against the whole string. -/
def matchYMDHM (s : List Char) : Option (Nat × Nat × Nat × Nat × Nat) :=
  match year4 s with
  | some (y, '-' :: r1) =>
    firstSome (monthCands r1) fun mc =>
      match mc.2 with
      | '-' :: r2 =>
        firstSome (dayCands r2) fun dc =>
          match ws1 dc.2 with
          | some r3 =>
            firstSome (hourCands r3) fun hc =>
              match hc.2 with
              | ':' :: r4 =>
                firstSome (minuteCands r4) fun nc =>
                  match nc.2 with
                  | [] => some (y, mc.1, dc.1, hc.1, nc.1)
                  | _ => none
              | _ => none
          | none => none
      | _ => none
  | _ => none

/-- Purely textual match of `"%Y-%m-%d"` against the whole string. -/
def matchYMD (s : List Char) : Option (Nat × Nat × Nat) :=
  match year4 s with
  | some (y, '-' :: r1) =>
    firstSome (monthCands r1) fun mc =>
      match mc.2 with
      | '-' :: r2 =>
        firstSome (dayCands r2) fun dc =>
          match dc.2 with
          | [] => some (y, mc.1, dc.1)
          | _ => none
      | _ => none
  | _ => none

def isLeap (y : Nat) : Bool :=
  y % 4 == 0 && (y % 100 != 0 || y % 400 == 0)

def daysInMonth (y m : Nat) : Nat :=
  if m == 2 then (if isLeap y then 29 else 28)
  else if m == 4 || m == 6 || m == 9 || m == 11 then 30
  else 31

/-- The `datetime` constructor validation (`MINYEAR ≤ y ≤ MAXYEAR`,
month and day ranges, day against the month length). -/
def validDate (y m d : Nat) : Bool :=
  1 ≤ y && y ≤ 9999 && 1 ≤ m && m ≤ 12 && 1 ≤ d && d ≤ daysInMonth y m

/-- Embedding of `datetime.strptime(s, fmt)` for the three formats:
`none` models the raised `ValueError`. -/
def strptimePy (fmt : Fmt) (s : List Char) : Option DateTime :=
  match fmt with
  | .dmy =>
    match matchDMY s with
    | some (d, m, y) => if validDate y m d then some ⟨y, m, d, 0, 0⟩ else none
    | none => none
  | .ymd =>
    match matchYMD s with
    | some (y, m, d) => if validDate y m d then some ⟨y, m, d, 0, 0⟩ else none
    | none => none
  | .ymdHM =>
    match matchYMDHM s with
    | some (y, m, d, h, n) =>
      if validDate y m d && h ≤ 23 && n ≤ 59 then some ⟨y, m, d, h, n⟩ else none
    | none => none

/-- Day number of a proleptic Gregorian date (Hinnant civil-from-days
construction, March-based year); only differences matter. -/
def daysFromCivil (y m d : Nat) : Nat :=
  let y2 := if m ≤ 2 then y - 1 else y
  let era := y2 / 400
  let yoe := y2 % 400
  let mp := (m + 9) % 12
  let doy := (153 * mp + 2) / 5 + d - 1
  let doe := yoe * 365 + yoe / 4 - yoe / 100 + doy
  era * 146097 + doe

/-- Total minutes of a parsed timestamp (the formats in use have no
seconds, so `timedelta` arithmetic is exact in minutes). -/
def toMinutes (t : DateTime) : Int :=
  (daysFromCivil t.year t.month t.day : Int) * 1440 + t.hour * 60 + t.minute

def pad (width n : Nat) : List Char :=
  let s := Nat.toDigits 10 n
  List.replicate (width - s.length) '0' ++ s

/-- Embedding of `datetime.strftime` for the three formats. -/
def strftimePy (fmt : Fmt) (t : DateTime) : List Char :=
  match fmt with
  | .dmy => pad 2 t.day ++ '/' :: pad 2 t.month ++ '/' :: pad 4 t.year
  | .ymd => pad 4 t.year ++ '-' :: pad 2 t.month ++ '-' :: pad 2 t.day
  | .ymdHM =>
    pad 4 t.year ++ '-' :: pad 2 t.month ++ '-' :: pad 2 t.day ++
      ' ' :: pad 2 t.hour ++ ':' :: pad 2 t.minute

/-- Embedding of `formatear_fecha` (app.py lines 109–128): empty input
yields `""`; a parse failure returns the input verbatim (the logged
`ValueError` branch); otherwise the reformatted date. -/
def formatear_fecha (fecha_str : List Char) (formato_entrada formato_salida : Fmt) :
    List Char :=
  if fecha_str = [] then []
  else
    match strptimePy formato_entrada fecha_str with
    | some t => strftimePy formato_salida t
    | none => fecha_str

/-- Embedding of `calcular_dias_estancia` (app.py lines 130–149):
`(egreso - ingreso).days` with Python floor-division semantics of
`timedelta.days`; any `ValueError` from either parse yields `None`. -/
def calcular_dias_estancia (fecha_ingreso fecha_egreso : List Char)
    (formato : Fmt) : Option Int :=
  match strptimePy formato fecha_ingreso, strptimePy formato fecha_egreso with
  | some ingreso, some egreso =>
    some (Int.fdiv (toMinutes egreso - toMinutes ingreso) 1440)
  | _, _ => none

/-! ## Regex extraction engine (section 6 of app.py)

Each Python pattern is compiled by hand into a scanner over `List Char`.
`re.search` scans left to right and reports the first position where the
whole pattern matches; `re.finditer` additionally resumes scanning right
after each match.  Greedy/lazy quantifier behaviour is reproduced for
the concrete patterns (see the per-function comments). -/

/-- Lowercasing as used by `re.IGNORECASE` on the letters appearing in
the source patterns (ASCII plus the Spanish accented vowels and eñe). -/
def lowerPy (c : Char) : Char :=
  if c.toNat == 0xc1 then Char.ofNat 0xe1
  else if c.toNat == 0xc9 then Char.ofNat 0xe9
  else if c.toNat == 0xcd then Char.ofNat 0xed
  else if c.toNat == 0xd3 then Char.ofNat 0xf3
  else if c.toNat == 0xda then Char.ofNat 0xfa
  else if c.toNat == 0xd1 then Char.ofNat 0xf1
  else c.toLower

def ciEq (a b : Char) : Bool := lowerPy a == lowerPy b

/-- Case-insensitive literal match; returns the unconsumed remainder. -/
def litCi : List Char → List Char → Option (List Char)
  | [], l => some l
  | _ :: _, [] => none
  | p :: ps, c :: cs => if ciEq p c then litCi ps cs else none

/-- Largest index whose character satisfies `p`. -/
def lastIdxWhere (p : Char → Bool) : List Char → Option Nat
  | [] => none
  | c :: r =>
    match lastIdxWhere p r with
    | some k => some (k + 1)
    | none => if p c then some 0 else none

/-- Left-to-right scan of `re.search`: try a full match at every start
position, first success wins. -/
def searchGo (tryAt : List Char → Option α) : Nat → List Char → Option α
  | 0, _ => none
  | _ + 1, [] => none
  | fuel + 1, c :: rest =>
    match tryAt (c :: rest) with
    | some a => some a
    | none => searchGo tryAt fuel rest

/-! ### `extraer_diagnosticos_regex`

Pattern (IGNORECASE, `finditer`):
`(?:DIAGN[OÓ]STICO|DX|DIAGN[OÓ]STICOS?)\s*:?\s*([A-Z0-9]+\s+[^\n]+)`
followed by `codigo = re.search(r'([A-Z]\d{2,3})', diag)` (no flags). -/

/-- `[A-Z0-9]` under `IGNORECASE`: ASCII alphanumeric. -/
def isAlnumAscii (c : Char) : Bool := c.isAlpha || c.isDigit

def altDiagBase (l : List Char) : Option (List Char) :=
  match litCi "DIAGN".toList l with
  | some (c :: r2) =>
    if ciEq 'O' c || ciEq 'Ó' c then litCi "STICO".toList r2 else none
  | _ => none

/-- Remainders after the label alternation, in regex alternation order:
`DIAGN[OÓ]STICO`, then `DX`, then `DIAGN[OÓ]STICOS?` (greedy `S?` first
with, then without, the `S`). -/
def dxLabelCands (l : List Char) : List (List Char) :=
  (altDiagBase l).toList ++
  (litCi "DX".toList l).toList ++
  (match altDiagBase l with
   | some (c :: r2) => (if ciEq 'S' c then [r2] else []) ++ [c :: r2]
   | some [] => [[]]
   | none => [])

/-- Match `\s*:?\s*([A-Z0-9]+\s+[^\n]+)` after the label; returns the
captured group and the remainder after the whole match.  The `\s+` is
greedy; it only backtracks (to the last non-newline whitespace) when the
input ends inside the whitespace run, because any character after a
maximal run is neither whitespace nor a newline. -/
def dxTail (r : List Char) : Option (List Char × List Char) :=
  let r1 := r.dropWhile pyIsSpace
  let r2 := match r1 with | ':' :: t => t | _ => r1
  let r3 := r2.dropWhile pyIsSpace
  let g1 := r3.takeWhile isAlnumAscii
  if g1.isEmpty then none
  else
    let r4 := r3.drop g1.length
    let w := r4.takeWhile pyIsSpace
    if w.isEmpty then none
    else
      match r4.drop w.length with
      | c :: r5 =>
        let g2 := (c :: r5).takeWhile (fun x => x != '\n')
        some (g1 ++ w ++ g2, (c :: r5).drop g2.length)
      | [] =>
        match w with
        | [] => none
        | _ :: t =>
          match lastIdxWhere (fun x => x != '\n') t with
          | some j =>
            let g2 := (w.drop (j + 1)).takeWhile (fun x => x != '\n')
            some (g1 ++ w.take (j + 1) ++ g2, (w.drop (j + 1)).drop g2.length)
          | none => none

def tryDxAt (l : List Char) : Option (List Char × List Char) :=
  firstSome (dxLabelCands l) dxTail

/-- `re.finditer` for the diagnosis pattern: captured groups in document
order. -/
def diagScan : Nat → List Char → List (List Char)
  | 0, _ => []
  | _ + 1, [] => []
  | fuel + 1, c :: rest =>
    match tryDxAt (c :: rest) with
    | some (cap, restAfter) => cap :: diagScan fuel restAfter
    | none => diagScan fuel rest

structure Diagnostico where
  codigo : List Char
  descripcion : List Char
  tipo : List Char
deriving DecidableEq

/-- `[A-Z]` (no IGNORECASE in the `codigo` search). -/
def isUpperAscii (c : Char) : Bool := 'A' ≤ c && c ≤ 'Z'

/-- Match of `[A-Z]\d{2,3}` anchored at the head (greedy: three digits
preferred over two). -/
def icdAt : List Char → Option (List Char)
  | a :: b :: c :: r =>
    if isUpperAscii a && b.isDigit && c.isDigit then
      match r with
      | d :: _ => if d.isDigit then some [a, b, c, d] else some [a, b, c]
      | [] => some [a, b, c]
    else none
  | _ => none

/-- `re.search(r'([A-Z]\d{2,3})', diag)`: leftmost occurrence. -/
def icdFirst : List Char → Option (List Char)
  | [] => none
  | c :: r =>
    match icdAt (c :: r) with
    | some t => some t
    | none => icdFirst r

/-- One record of the diagnosis loop: `codigo` is the `re.search` hit
(or `''`), `descripcion` the full stripped capture, and `tipo` is decided
by `len(diagnosticos) == 0`, i.e. by the position `n` in the list. -/
def mkDiag (n : Nat) (diag : List Char) : Diagnostico :=
  { codigo := (icdFirst diag).getD [],
    descripcion := diag,
    tipo := if n = 0 then "principal".toList else "secundario".toList }

/-- The record-building loop of `extraer_diagnosticos_regex`: appends one
record per match. -/
def diagBuild (acc : List Diagnostico) : List (List Char) → List Diagnostico
  | [] => acc
  | cap :: rest => diagBuild (acc ++ [mkDiag acc.length (stripPy cap)]) rest

def extraer_diagnosticos_regex ( texto : List Char) : List Diagnostico :=
  diagBuild [] (diagScan texto.length texto)

/-! ### `extraer_servicios_regex`

Pattern (IGNORECASE, `finditer`):
`SEDE DE ATENCION\s+(\d+)\s+([^\n]+?)\s+FOLIO\s+\d+\s+FECHA\s+`
`(\d{2}/\d{2}/\d{4})\s+(\d{2}:\d{2}:\d{2})\s+TIPO DE ATENCION\s*:\s*([^\n]+)` -/

structure Servicio where
  sede_codigo : List Char
  sede_nombre : List Char
  fecha_ingreso : List Char
  hora_ingreso : List Char
  tipo_atencion : List Char
  fecha_egreso : Option (List Char)
  hora_egreso : Option (List Char)
deriving DecidableEq

/-- `\d{2}/\d{2}/\d{4}` anchored at the head. -/
def dateShape : List Char → Option (List Char × List Char)
  | a :: b :: s1 :: c :: d :: s2 :: e :: f :: g :: h :: r =>
    if a.isDigit && b.isDigit && s1 == '/' && c.isDigit && d.isDigit &&
       s2 == '/' && e.isDigit && f.isDigit && g.isDigit && h.isDigit then
      some ([a, b, s1, c, d, s2, e, f, g, h], r)
    else none
  | _ => none

/-- `\d{2}:\d{2}:\d{2}` anchored at the head. -/
def timeShape : List Char → Option (List Char × List Char)
  | a :: b :: s1 :: c :: d :: s2 :: e :: f :: r =>
    if a.isDigit && b.isDigit && s1 == ':' && c.isDigit && d.isDigit &&
       s2 == ':' && e.isDigit && f.isDigit then
      some ([a, b, s1, c, d, s2, e, f], r)
    else none
  | _ => none

/-- Candidates of the lazy group `([^\n]+?)\s+FOLIO`, in lazy order
(shortest capture first); each carries the remainder after `FOLIO`. -/
def lazyNombreCands : Nat → List Char → List Char → List (List Char × List Char)
  | 0, _, _ => []
  | fuel + 1, accRev, c :: rest =>
    if c == '\n' then []
    else
      (match ws1 rest with
       | some r2 =>
         match litCi "FOLIO".toList r2 with
         | some r3 => [((c :: accRev).reverse, r3)]
         | none => []
       | none => []) ++ lazyNombreCands fuel (c :: accRev) rest
  | _ + 1, _, [] => []

/-- Deterministic tail of the services pattern after `FOLIO`. -/
def servAfterFolio (l : List Char) :
    Option ((List Char × List Char × List Char) × List Char) := do
  let r1 ← ws1 l
  let folio := r1.takeWhile Char.isDigit
  guard (folio ≠ [])
  let r2 ← ws1 (r1.drop folio.length)
  let r3 ← litCi "FECHA".toList r2
  let r4 ← ws1 r3
  let (fecha, r5) ← dateShape r4
  let r6 ← ws1 r5
  let (hora, r7) ← timeShape r6
  let r8 ← ws1 r7
  let r9 ← litCi "TIPO DE ATENCION".toList r8
  match r9.dropWhile pyIsSpace with
  | ':' :: r11 =>
    let r12 := r11.dropWhile pyIsSpace
    let tipo := r12.takeWhile (fun c => c != '\n')
    if tipo.isEmpty then none
    else some ((fecha, hora, tipo), r12.drop tipo.length)
  | _ => none

/-- Record constructor of the services loop: `fecha_egreso` and
`hora_egreso` are the literal `None` of the source (app.py lines
321–322), `sede_nombre` and `tipo_atencion` are `.strip()`-ed. -/
def mkServicio (codigo nombre fecha hora tipo : List Char) : Servicio :=
  { sede_codigo := codigo, sede_nombre := stripPy nombre,
    fecha_ingreso := fecha, hora_ingreso := hora,
    tipo_atencion := stripPy tipo,
    fecha_egreso := none, hora_egreso := none }

/-- Raw groups of one match of the services pattern: site code, lazy
site name, date, time, attention type, and the remainder after the
match. -/
def tryServRaw (l : List Char) :
    Option ((List Char × List Char × List Char × List Char × List Char) × List Char) := do
  let r0 ← litCi "SEDE DE ATENCION".toList l
  let r1 ← ws1 r0
  let codigo := r1.takeWhile Char.isDigit
  guard (codigo ≠ [])
  let r2 ← ws1 (r1.drop codigo.length)
  firstSome (lazyNombreCands r2.length [] r2) fun nc => do
    let ((fecha, hora, tipo), rest) ← servAfterFolio nc.2
    some ((codigo, nc.1, fecha, hora, tipo), rest)

def tryServAt (l : List Char) : Option (Servicio × List Char) :=
  (tryServRaw l).map fun rc =>
    (mkServicio rc.1.1 rc.1.2.1 rc.1.2.2.1 rc.1.2.2.2.1 rc.1.2.2.2.2, rc.2)

def servScan : Nat → List Char → List Servicio
  | 0, _ => []
  | _ + 1, [] => []
  | fuel + 1, c :: rest =>
    match tryServAt (c :: rest) with
    | some (s, restAfter) => s :: servScan fuel restAfter
    | none => servScan fuel rest

def extraer_servicios_regex ( texto : List Char) : List Servicio :=
  servScan texto.length texto

/-! ### `extraer_paciente_regex` — seven independent `re.search` probes -/

structure Paciente where
  documento : Option (List Char)
  nombre : Option (List Char)
  fecha_nacimiento : Option (List Char)
  edad : Option Nat
  telefono : Option (List Char)
  direccion : Option (List Char)
  afiliacion : Option (List Char)
deriving DecidableEq

/-- `int(...)` over a captured digit string. -/
def natOfDigits (l : List Char) : Nat :=
  l.foldl (fun a c => a * 10 + (c.toNat - 48)) 0

/-- Tail `\s*([^\n]+)` shared by the address and affiliation probes: the
greedy `\s*` consumes the maximal whitespace run (which may span
newlines) and only backtracks when the input ends inside it. -/
def wsStarCapLine (r : List Char) : Option (List Char) :=
  let w := r.takeWhile pyIsSpace
  match r.drop w.length with
  | c :: r2 => some ((c :: r2).takeWhile (fun x => x != '\n'))
  | [] =>
    match lastIdxWhere (fun x => x != '\n') w with
    | some j => some ((w.drop j).takeWhile (fun x => x != '\n'))
    | none => none

/-- `CC\s*(\d+)`. -/
def ccAt (l : List Char) : Option (List Char) := do
  let r ← litCi "CC".toList l
  let r2 := r.dropWhile pyIsSpace
  let ds := r2.takeWhile Char.isDigit
  guard (ds ≠ [])
  some ds

/-- `[A-ZÁÉÍÓÚÑ\s]` under IGNORECASE. -/
def classNombre (c : Char) : Bool :=
  c.isAlpha ||
  ciEq c 'Á' || ciEq c 'É' || ciEq c 'Í' || ciEq c 'Ó' || ciEq c 'Ú' || ciEq c 'Ñ' ||
  pyIsSpace c

/-- `\s+Fec\.\s*Nacimiento` — the tail that closes the lazy name group. -/
def nombreTail (l : List Char) : Option Unit := do
  let r1 ← ws1 l
  let r2 ← litCi "FEC".toList r1
  let r3 ← (match r2 with | '.' :: t => some t | _ => none)
  let _ ← litCi "NACIMIENTO".toList (r3.dropWhile pyIsSpace)
  some ()

/-- Lazy growth of `([A-ZÁÉÍÓÚÑ\s]+?)`: the shortest nonempty prefix of
class characters followed by the closing tail wins. -/
def lazyNombreGrow : Nat → List Char → List Char → Option (List Char)
  | 0, _, _ => none
  | fuel + 1, accRev, c :: rest =>
    if classNombre c then
      match nombreTail rest with
      | some _ => some (c :: accRev).reverse
      | none => lazyNombreGrow fuel (c :: accRev) rest
    else none
  | _ + 1, _, [] => none

/-- `--\s*([A-ZÁÉÍÓÚÑ\s]+?)\s+Fec\.\s*Nacimiento`. -/
def nombreAt (l : List Char) : Option (List Char) := do
  let r ← litCi "--".toList l
  let r1 := r.dropWhile pyIsSpace
  lazyNombreGrow r1.length [] r1

/-- `Fec\.\s*Nacimiento:\s*(\d{2}/\d{2}/\d{4})`. -/
def fnAt (l : List Char) : Option (List Char) := do
  let r1 ← litCi "FEC".toList l
  let r2 ← (match r1 with | '.' :: t => some t | _ => none)
  let r3 ← litCi "NACIMIENTO".toList (r2.dropWhile pyIsSpace)
  let r4 ← (match r3 with | ':' :: t => some t | _ => none)
  let (d, _) ← dateShape (r4.dropWhile pyIsSpace)
  some d

/-- `Edad\s*actual:\s*(\d+)\s*AÑOS`. -/
def edadAt (l : List Char) : Option (List Char) := do
  let r1 ← litCi "EDAD".toList l
  let r2 ← litCi "ACTUAL:".toList (r1.dropWhile pyIsSpace)
  let r3 := r2.dropWhile pyIsSpace
  let ds := r3.takeWhile Char.isDigit
  guard (ds ≠ [])
  let _ ← litCi "AÑOS".toList ((r3.drop ds.length).dropWhile pyIsSpace)
  some ds

/-- `Teléfono:\s*(\d+)`. -/
def telAt (l : List Char) : Option (List Char) := do
  let r1 ← litCi "TELÉFONO:".toList l
  let r2 := r1.dropWhile pyIsSpace
  let ds := r2.takeWhile Char.isDigit
  guard (ds ≠ [])
  some ds

/-- `Dirección:\s*([^\n]+)`. -/
def dirAt (l : List Char) : Option (List Char) := do
  let r1 ← litCi "DIRECCIÓN:".toList l
  wsStarCapLine r1

/-- `(?:EPS|ENTIDAD PROMOTORA DE SALUD)[:\s]+([^\n]+)`. -/
def epsAt (l : List Char) : Option (List Char) := do
  let r ← (match litCi "EPS".toList l with
           | some r => some r
           | none => litCi "ENTIDAD PROMOTORA DE SALUD".toList l)
  let w := r.takeWhile (fun c => c == ':' || pyIsSpace c)
  guard (w ≠ [])
  match r.drop w.length with
  | c :: r2 => some ((c :: r2).takeWhile (fun x => x != '\n'))
  | [] =>
    match w with
    | [] => none
    | _ :: t =>
      match lastIdxWhere (fun x => x != '\n') t with
      | some j => some ((w.drop (j + 1)).takeWhile (fun x => x != '\n'))
      | none => none

def extraer_paciente_regex ( texto : List Char) : Paciente :=
  { documento := searchGo ccAt texto.length texto,
    nombre := (searchGo nombreAt texto.length texto).map stripPy,
    fecha_nacimiento := searchGo fnAt texto.length texto,
    edad := (searchGo edadAt texto.length texto).map natOfDigits,
    telefono := searchGo telAt texto.length texto,
    direccion := (searchGo dirAt texto.length texto).map stripPy,
    afiliacion := (searchGo epsAt texto.length texto).map stripPy }

/-! ### Placeholder extractors and the aggregator

`extraer_medicamentos_regex` (app.py lines 342–351) and the seven other
section extractors are explicit placeholders in the source: their bodies
build no records and return the empty list for every input. -/

structure Medicamento where
  cantidad : List Char
  descripcion : List Char
  dosis : List Char
  via : List Char
deriving DecidableEq

structure Registro where
  campos : List (List Char × List Char)
deriving DecidableEq

def extraer_medicamentos_regex (_texto : List Char) : List Medicamento := []

def extraer_procedimientos_regex (_texto : List Char) : List Registro := []

def extraer_cirugias_regex (_texto : List Char) : List Registro := []

def extraer_laboratorios_regex (_texto : List Char) : List Registro := []

def extraer_imagenes_regex (_texto : List Char) : List Registro := []

def extraer_interconsultas_regex (_texto : List Char) : List Registro := []

def extraer_evoluciones_regex (_texto : List Char) : List Registro := []

def extraer_altas_regex (_texto : List Char) : List Registro := []

/-- The aggregated result: one field per key of the dict literal built by
`procesar_historia_regex` (app.py lines 388–405), in source order. -/
structure Historia where
  paciente : Paciente
  servicios : List Servicio
  diagnosticos : List Diagnostico
  medicamentos : List Medicamento
  procedimientos : List Registro
  cirugias : List Registro
  laboratorios : List Registro
  imagenes : List Registro
  interconsultas : List Registro
  evoluciones : List Registro
  altas : List Registro
deriving DecidableEq

/-- The eleven keys of the returned dict, in the order of the literal. -/
def clavesHistoria : List String :=
  ["paciente", "servicios", "diagnosticos", "medicamentos", "procedimientos",
   "cirugias", "laboratorios", "imagenes", "interconsultas", "evoluciones",
   "altas"]

def procesar_historia_regex ( texto : List Char) : Historia :=
  let t := limpiar_texto texto
  { paciente := extraer_paciente_regex t,
    servicios := extraer_servicios_regex t,
    diagnosticos := extraer_diagnosticos_regex t,
    medicamentos := extraer_medicamentos_regex t,
    procedimientos := extraer_procedimientos_regex t,
    cirugias := extraer_cirugias_regex t,
    laboratorios := extraer_laboratorios_regex t,
    imagenes := extraer_imagenes_regex t,
    interconsultas := extraer_interconsultas_regex t,
    evoluciones := extraer_evoluciones_regex t,
    altas := extraer_altas_regex t }

/-- A `Paciente` with every probe missing and the fully empty result. -/
def pacienteVacio : Paciente := ⟨none, none, none, none, none, none, none⟩

def historiaVacia : Historia :=
  ⟨pacienteVacio, [], [], [], [], [], [], [], [], [], []⟩

/-! ## Properties of the normalizer

`onlyNl` restricts attention to inputs whose line breaks are all `'\n'`
(the failure mode of `limpiar_texto` on other break characters is
exhibited separately).  `pairOk`/`adjOk` say that no whitespace character
sits directly next to a newline — together with `noLeadTrailWs` this is
exactly "no blank line survives and every line is trimmed". -/

def onlyNl (l : List Char) : Prop := ∀ c ∈ l, pyIsBreak c = true → c = '\n'

instance (l : List Char) : Decidable (onlyNl l) :=
  inferInstanceAs (Decidable (∀ c ∈ l, pyIsBreak c = true → c = '\n'))

def pairOk (a b : Char) : Prop :=
  (a = '\n' → pyIsSpace b = false) ∧ (b = '\n' → pyIsSpace a = false)

instance (a b : Char) : Decidable (pairOk a b) :=
  inferInstanceAs (Decidable
    ((a = '\n' → pyIsSpace b = false) ∧ (b = '\n' → pyIsSpace a = false)))

instance : DecidableRel pairOk := fun _ _ => inferInstance

def adjOk (l : List Char) : Prop := List.Chain' pairOk l

/-- Executable form of `adjOk` (the `Chain'` instance of Mathlib does
not reduce in the kernel). -/
def adjOkB : List Char → Bool
  | a :: b :: r => decide (pairOk a b) && adjOkB (b :: r)
  | _ => true

theorem adjOk_iff : ∀ (l : List Char), adjOk l ↔ adjOkB l = true
  | [] => by simp [adjOk, adjOkB]
  | [a] => by simp [adjOk, adjOkB]
  | a :: b :: r => by
    rw [adjOk, List.chain'_cons]
    rw [show adjOkB (a :: b :: r) = (decide (pairOk a b) && adjOkB (b :: r)) from rfl]
    rw [Bool.and_eq_true, decide_eq_true_iff]
    exact and_congr Iff.rfl (adjOk_iff (b :: r))

instance (l : List Char) : Decidable (adjOk l) :=
  decidable_of_iff (adjOkB l = true) (adjOk_iff l).symm

def noLeadTrailWs (l : List Char) : Prop :=
  l.head?.all (fun c => !pyIsSpace c) = true ∧
  l.getLast?.all (fun c => !pyIsSpace c) = true

/-- No newline occurs inside the whitespace run following any newline:
the post-condition of the blank-line collapse. -/
def noBlankRun : List Char → Bool
  | [] => true
  | c :: rest =>
    (if c == '\n' then !((rest.takeWhile pyIsSpace).contains '\n') else true) &&
      noBlankRun rest

theorem space_nl : pyIsSpace '\n' = true := by decide

theorem pairOk_symm {a b : Char} (h : pairOk a b) : pairOk b a := ⟨h.2, h.1⟩

theorem pairOk_of_left {a b : Char} (h : pyIsSpace a = false) : pairOk a b := by
  constructor
  · intro ha
    rw [ha, space_nl] at h
    simp at h
  · intro _
    exact h

theorem pairOk_of_right {a b : Char} (h : pyIsSpace b = false) : pairOk a b :=
  pairOk_symm (pairOk_of_left h)

theorem adjOk_nil : adjOk [] := List.chain'_nil

theorem adjOk_of_no_nl {l : List Char} (h : '\n' ∉ l) : adjOk l := by
  induction l with
  | nil => exact adjOk_nil
  | cons c r ih =>
    rw [adjOk, List.chain'_cons']
    have hc : c ≠ '\n' := fun hc => h (by rw [← hc]; exact List.mem_cons_self c r)
    refine ⟨fun y hy => ?_, ih (fun hy => h (List.mem_cons_of_mem _ hy))⟩
    have hy2 : y ∈ r := List.mem_of_mem_head? hy
    have hy3 : y ≠ '\n' := fun hh => h (by rw [← hh]; exact List.mem_cons_of_mem _ hy2)
    exact ⟨fun h2 => absurd h2 hc, fun h2 => absurd h2 hy3⟩

theorem adjOk_reverse {l : List Char} (h : adjOk l) : adjOk l.reverse := by
  rw [adjOk, List.chain'_reverse]
  exact List.Chain'.imp (fun _ _ hp => pairOk_symm hp) h

theorem adjOk_suffix {l s : List Char} (h : adjOk l) (hs : s.IsSuffix l) : adjOk s :=
  List.Chain'.suffix h hs

theorem adjOk_dropWhile (p : Char → Bool) {l : List Char} (h : adjOk l) :
    adjOk (l.dropWhile p) :=
  adjOk_suffix h ⟨l.takeWhile p, l.takeWhile_append_dropWhile p⟩

theorem adjOk_stripPy {l : List Char} (h : adjOk l) : adjOk (stripPy l) :=
  adjOk_reverse (adjOk_dropWhile _ (adjOk_reverse (adjOk_dropWhile _ h)))

/-! ### `stripPy` lemmas -/

theorem mem_stripPy {c : Char} {l : List Char} (h : c ∈ stripPy l) : c ∈ l := by
  unfold stripPy at h
  rw [List.mem_reverse] at h
  have h2 := List.dropWhile_sublist (l := (l.dropWhile pyIsSpace).reverse) pyIsSpace |>.subset h
  rw [List.mem_reverse] at h2
  exact List.dropWhile_sublist pyIsSpace |>.subset h2

theorem stripPy_head?_not_space {l : List Char} {c : Char}
    (h : (stripPy l).head? = some c) : pyIsSpace c = false := by
  unfold stripPy at h
  rw [List.head?_reverse] at h
  have hx : ((l.dropWhile pyIsSpace).reverse).getLast? = some c := by
    conv_lhs => rw [← List.takeWhile_append_dropWhile pyIsSpace
      ((l.dropWhile pyIsSpace).reverse)]
    rw [List.getLast?_append, h]
    rfl
  rw [List.getLast?_reverse] at hx
  have hh := List.head?_dropWhile_not pyIsSpace l
  rw [hx] at hh
  exact hh

theorem stripPy_getLast?_not_space {l : List Char} {c : Char}
    (h : (stripPy l).getLast? = some c) : pyIsSpace c = false := by
  unfold stripPy at h
  rw [List.getLast?_reverse] at h
  have := List.head?_dropWhile_not pyIsSpace ((l.dropWhile pyIsSpace).reverse)
  rw [h] at this
  exact this

theorem noLeadTrailWs_nil : noLeadTrailWs [] := by constructor <;> rfl

theorem noLeadTrailWs_stripPy (l : List Char) : noLeadTrailWs (stripPy l) := by
  constructor
  · rcases hh : (stripPy l).head? with _ | c
    · rfl
    · simp [Option.all, stripPy_head?_not_space hh]
  · rcases hh : (stripPy l).getLast? with _ | c
    · rfl
    · simp [Option.all, stripPy_getLast?_not_space hh]

theorem dropWhile_eq_self_of_head {p : Char → Bool} {l : List Char}
    (h : l.head?.all (fun c => !p c) = true) : l.dropWhile p = l := by
  cases l with
  | nil => rfl
  | cons c r =>
    simp only [List.head?_cons, Option.all_some, Bool.not_eq_true'] at h
    exact List.dropWhile_cons_of_neg (by simp [h])

theorem stripPy_eq_self {l : List Char} (h : noLeadTrailWs l) : stripPy l = l := by
  unfold stripPy
  rw [dropWhile_eq_self_of_head h.1]
  rw [dropWhile_eq_self_of_head (by rw [List.head?_reverse]; exact h.2)]
  exact List.reverse_reverse l

theorem stripPy_idem (l : List Char) : stripPy (stripPy l) = stripPy l :=
  stripPy_eq_self (noLeadTrailWs_stripPy l)

theorem stripPy_eq_nil_all_space {l : List Char} (h : stripPy l = []) :
    ∀ c ∈ l, pyIsSpace c = true := by
  intro c hc
  unfold stripPy at h
  rw [List.reverse_eq_nil_iff, List.dropWhile_eq_nil_iff] at h
  by_contra hsp
  rw [Bool.not_eq_true] at hsp
  have h1 : c ∈ l.dropWhile pyIsSpace := by
    rcases (List.mem_append.1 ((List.takeWhile_append_dropWhile pyIsSpace l) ▸ hc)) with h2 | h2
    · exact absurd (List.mem_takeWhile_imp h2) (by simp [hsp])
    · exact h2
  exact absurd (h c (List.mem_reverse.2 h1)) (by simp [hsp])

theorem stripPy_ne_nil_of_any {l : List Char}
    (h : l.any (fun c => !pyIsSpace c) = true) : stripPy l ≠ [] := by
  intro hnil
  rcases List.any_eq_true.1 h with ⟨c, hc, hsp⟩
  rw [Bool.not_eq_true'] at hsp
  exact absurd (stripPy_eq_nil_all_space hnil c hc) (by simp [hsp])

/-! ### `collapseBlank` lemmas -/

theorem collapseGo_nil : ∀ f, collapseGo f [] = []
  | 0 => rfl
  | _ + 1 => rfl

theorem collapseGo_cons_not_nl {c : Char} (h : ¬c = '\n') (f : Nat) (rest : List Char) :
    collapseGo (f + 1) (c :: rest) = c :: collapseGo f rest := by
  have hb : (c == '\n') = false := by simpa using h
  simp only [collapseGo, hb]
  simp

theorem collapseGo_cons_nl_none {rest : List Char}
    (h : lastNlIdx (rest.takeWhile pyIsSpace) = none) (f : Nat) :
    collapseGo (f + 1) ('\n' :: rest) = '\n' :: collapseGo f rest := by
  simp only [collapseGo, h]
  simp

theorem collapseGo_cons_nl_some {rest : List Char} {k : Nat}
    (h : lastNlIdx (rest.takeWhile pyIsSpace) = some k) (f : Nat) :
    collapseGo (f + 1) ('\n' :: rest) = '\n' :: collapseGo f (rest.drop (k + 1)) := by
  simp only [collapseGo, h]
  simp

theorem lastNlIdx_none {l : List Char} (h : lastNlIdx l = none) : '\n' ∉ l := by
  induction l with
  | nil => simp
  | cons c r ih =>
    intro hm
    unfold lastNlIdx at h
    rcases hr : lastNlIdx r with _ | k
    · rw [hr] at h
      rcases List.mem_cons.1 hm with h2 | h2
      · simp [← h2] at h
      · exact ih hr h2
    · rw [hr] at h
      simp at h

theorem lastNlIdx_some {l : List Char} {k : Nat} (h : lastNlIdx l = some k) :
    k < l.length ∧ '\n' ∉ l.drop (k + 1) := by
  induction l generalizing k with
  | nil => simp [lastNlIdx] at h
  | cons c r ih =>
    unfold lastNlIdx at h
    rcases hr : lastNlIdx r with _ | k2
    · rw [hr] at h
      by_cases hc : c == '\n'
      · rw [if_pos hc] at h
        obtain rfl : (0 : Nat) = k := by simpa using h
        exact ⟨by simp, lastNlIdx_none hr⟩
      · rw [if_neg hc] at h
        simp at h
    · rw [hr] at h
      obtain rfl : k2 + 1 = k := by simpa using h
      obtain ⟨h1, h2⟩ := ih hr
      exact ⟨by simpa using h1, by simpa using h2⟩

theorem mem_collapseGo {c : Char} : ∀ {f l}, c ∈ collapseGo f l → c ∈ l ∨ c = '\n'
  | 0, l, h => Or.inl h
  | _ + 1, [], h => by
    rw [collapseGo_nil] at h
    simp at h
  | f + 1, a :: rest, h => by
    by_cases ha : a = '\n'
    · subst ha
      rcases hk : lastNlIdx (rest.takeWhile pyIsSpace) with _ | k
      · rw [collapseGo_cons_nl_none hk] at h
        rcases List.mem_cons.1 h with h2 | h2
        · exact Or.inr h2
        · rcases mem_collapseGo h2 with h3 | h3
          · exact Or.inl (List.mem_cons_of_mem _ h3)
          · exact Or.inr h3
      · rw [collapseGo_cons_nl_some hk] at h
        rcases List.mem_cons.1 h with h2 | h2
        · exact Or.inr h2
        · rcases mem_collapseGo h2 with h3 | h3
          · exact Or.inl (List.mem_cons_of_mem _ (List.mem_of_mem_drop h3))
          · exact Or.inr h3
    · rw [collapseGo_cons_not_nl ha] at h
      rcases List.mem_cons.1 h with h2 | h2
      · exact Or.inl (h2 ▸ List.mem_cons_self a rest)
      · rcases mem_collapseGo h2 with h3 | h3
        · exact Or.inl (List.mem_cons_of_mem _ h3)
        · exact Or.inr h3

/-- Copying a newline-free prefix commutes with the collapse scan. -/
theorem collapseGo_append_no_nl :
    ∀ (a : List Char) {f : Nat} (b : List Char), '\n' ∉ a → a.length ≤ f →
      collapseGo f (a ++ b) = a ++ collapseGo (f - a.length) b
  | [], f, b, _, _ => rfl
  | c :: a2, f, b, hnl, hlen => by
    have hc : ¬c = '\n' := fun h => hnl (h ▸ List.mem_cons_self c a2)
    rcases f with _ | f2
    · simp at hlen
    · rw [List.cons_append, collapseGo_cons_not_nl hc,
        collapseGo_append_no_nl a2 b (fun h => hnl (List.mem_cons_of_mem _ h))
          (by simpa using hlen)]
      simp [Nat.succ_sub_succ]

theorem contains_nl_false {l : List Char} (h : '\n' ∉ l) : l.contains '\n' = false := by
  rw [Bool.eq_false_iff]
  intro hc
  exact h (List.elem_iff.1 hc)

theorem takeWhile_space_dropWhile_space (l : List Char) :
    (l.dropWhile pyIsSpace).takeWhile pyIsSpace = [] := by
  rcases hd : l.dropWhile pyIsSpace with _ | ⟨d, r⟩
  · rfl
  · have := List.head?_dropWhile_not pyIsSpace l
    rw [hd] at this
    simp only [List.head?_cons] at this
    exact List.takeWhile_cons_of_neg (by simp [this])

/-- The whitespace prefix of a collapsed list is newline-free whenever
the whitespace prefix of the original is. -/
theorem takeWhile_space_collapseGo {f : Nat} {l : List Char} (hf : l.length ≤ f)
    (h : '\n' ∉ l.takeWhile pyIsSpace) :
    ((collapseGo f l).takeWhile pyIsSpace).contains '\n' = false := by
  have hw : ∀ c ∈ l.takeWhile pyIsSpace, pyIsSpace c = true :=
    fun c hc => List.mem_takeWhile_imp hc
  have hlen : (l.takeWhile pyIsSpace).length ≤ f :=
    le_trans (List.takeWhile_sublist pyIsSpace).length_le hf
  have hcol : collapseGo f l =
      l.takeWhile pyIsSpace ++
        collapseGo (f - (l.takeWhile pyIsSpace).length) (l.dropWhile pyIsSpace) := by
    conv_lhs => rw [← List.takeWhile_append_dropWhile pyIsSpace l]
    exact collapseGo_append_no_nl _ _ h hlen
  rcases hd : l.dropWhile pyIsSpace with _ | ⟨d, r⟩
  · rw [hcol, hd, collapseGo_nil, List.append_nil]
    rw [List.takeWhile_eq_self_iff.2 ?_]
    · exact contains_nl_false h
    · intro a ha
      exact hw a ha
  · have hdns : pyIsSpace d = false := by
      have := List.head?_dropWhile_not pyIsSpace l
      rw [hd] at this
      simpa using this
    have hdshape : ∃ m, collapseGo (f - (l.takeWhile pyIsSpace).length) (d :: r) = d :: m := by
      rcases f - (l.takeWhile pyIsSpace).length with _ | f2
      · exact ⟨r, rfl⟩
      · have hdnl : ¬d = '\n' := fun hh => by
          rw [hh] at hdns
          rw [space_nl] at hdns
          simp at hdns
        exact ⟨collapseGo f2 r, collapseGo_cons_not_nl hdnl f2 r⟩
    obtain ⟨m, hm⟩ := hdshape
    rw [hcol, hd, hm, List.takeWhile_append_of_pos hw,
      List.takeWhile_cons_of_neg (by simp [hdns])]
    rw [List.append_nil]
    exact contains_nl_false h

theorem noBlankRun_cons_not_nl {c : Char} (h : ¬c = '\n') (m : List Char) :
    noBlankRun (c :: m) = noBlankRun m := by
  simp [noBlankRun, h]

theorem noBlankRun_cons_nl (m : List Char) :
    noBlankRun ('\n' :: m) =
      (!((m.takeWhile pyIsSpace).contains '\n') && noBlankRun m) := by
  simp [noBlankRun]

/-- The collapse pass leaves no newline inside a whitespace run that
follows a newline. -/
theorem noBlankRun_collapseGo : ∀ {f l}, l.length ≤ f → noBlankRun (collapseGo f l) = true
  | 0, l, hf => by
    have : l = [] := List.length_eq_zero.1 (Nat.le_zero.1 hf)
    subst this
    rfl
  | _ + 1, [], _ => by
    rw [collapseGo_nil]
    rfl
  | f + 1, a :: rest, hf => by
    have hrest : rest.length ≤ f := by simpa using hf
    by_cases ha : a = '\n'
    · subst ha
      rcases hk : lastNlIdx (rest.takeWhile pyIsSpace) with _ | k
      · rw [collapseGo_cons_nl_none hk, noBlankRun_cons_nl]
        rw [takeWhile_space_collapseGo hrest (lastNlIdx_none hk),
          noBlankRun_collapseGo hrest]
        rfl
      · rw [collapseGo_cons_nl_some hk, noBlankRun_cons_nl]
        obtain ⟨hk1, hk2⟩ := lastNlIdx_some hk
        have hdropLen : rest.drop (k + 1) =
            (rest.takeWhile pyIsSpace).drop (k + 1) ++ rest.dropWhile pyIsSpace := by
          conv_lhs => rw [← List.takeWhile_append_dropWhile pyIsSpace rest]
          exact List.drop_append_of_le_length hk1
        have hnl2 : '\n' ∉ (rest.drop (k + 1)).takeWhile pyIsSpace := by
          rw [hdropLen, List.takeWhile_append_of_pos
            (fun c hc => List.mem_takeWhile_imp (List.mem_of_mem_drop hc)),
            takeWhile_space_dropWhile_space, List.append_nil]
          exact hk2
        have hlen2 : (rest.drop (k + 1)).length ≤ f :=
          le_trans (by simp) hrest
        rw [takeWhile_space_collapseGo hlen2 hnl2, noBlankRun_collapseGo hlen2]
        rfl
    · rw [collapseGo_cons_not_nl ha, noBlankRun_cons_not_nl ha]
      exact noBlankRun_collapseGo hrest

theorem noBlankRun_append_right :
    ∀ {a b : List Char}, noBlankRun (a ++ b) = true → noBlankRun b = true
  | [], _, h => h
  | c :: a2, b, h => by
    by_cases hc : c = '\n'
    · subst hc
      rw [List.cons_append, noBlankRun_cons_nl, Bool.and_eq_true] at h
      exact noBlankRun_append_right h.2
    · rw [List.cons_append, noBlankRun_cons_not_nl hc] at h
      exact noBlankRun_append_right h

/-- Identity of the collapse on adjacency-clean text. -/
theorem collapseGo_id_of_adjOk : ∀ (f : Nat) {l}, adjOk l → collapseGo f l = l
  | 0, _, _ => rfl
  | _ + 1, [], _ => rfl
  | f + 1, c :: rest, h => by
    by_cases hc : c = '\n'
    · subst hc
      have htw : rest.takeWhile pyIsSpace = [] := by
        cases rest with
        | nil => rfl
        | cons y r2 =>
          have hp : pairOk '\n' y := List.Chain'.rel_head? h (by simp)
          exact List.takeWhile_cons_of_neg (by simp [hp.1 rfl])
      have ht : adjOk rest := List.Chain'.tail h
      rw [collapseGo_cons_nl_none (by rw [htw]; rfl), collapseGo_id_of_adjOk f ht]
    · have ht : adjOk rest := List.Chain'.tail h
      rw [collapseGo_cons_not_nl hc, collapseGo_id_of_adjOk f ht]

/-! ### `splitlinesPy` lemmas -/

theorem splitGo_nil : ∀ f, splitGo f [] = []
  | 0 => rfl
  | _ + 1 => rfl

theorem splitGo_drop_nil {l : List Char} (f : Nat) (hl : l ≠ [])
    (hd : l.dropWhile (fun c => !pyIsBreak c) = []) :
    splitGo (f + 1) l = [l.takeWhile (fun c => !pyIsBreak c)] := by
  cases l with
  | nil => exact absurd rfl hl
  | cons a ls =>
    simp only [splitGo]
    rw [hd]

theorem splitGo_drop_cons {l r : List Char} {d : Char} (f : Nat)
    (hd : l.dropWhile (fun c => !pyIsBreak c) = d :: r) :
    splitGo (f + 1) l = l.takeWhile (fun c => !pyIsBreak c) ::
      splitGo f (if d == '\r' && r.head? == some '\n' then r.tail else r) := by
  cases l with
  | nil => simp at hd
  | cons a ls =>
    simp only [splitGo]
    rw [hd]

theorem dropWhile_break_head {l : List Char} {d : Char} {r : List Char}
    (hd : l.dropWhile (fun c => !pyIsBreak c) = d :: r) : pyIsBreak d = true := by
  have := List.head?_dropWhile_not (fun c => !pyIsBreak c) l
  rw [hd] at this
  simpa using this

theorem dropWhile_break_nl {l : List Char} {d : Char} {r : List Char} (ho : onlyNl l)
    (hd : l.dropWhile (fun c => !pyIsBreak c) = d :: r) : d = '\n' := by
  have hb := dropWhile_break_head hd
  have hm : d ∈ l :=
    (List.dropWhile_sublist (fun c => !pyIsBreak c)).subset (hd ▸ List.mem_cons_self d r)
  exact ho d hm hb

theorem splitGo_drop_nl {l r : List Char} (f : Nat)
    (hd : l.dropWhile (fun c => !pyIsBreak c) = '\n' :: r) :
    splitGo (f + 1) l = l.takeWhile (fun c => !pyIsBreak c) :: splitGo f r := by
  rw [splitGo_drop_cons f hd]
  simp

theorem onlyNl_suffix {a b : List Char} (h : onlyNl (a ++ b)) : onlyNl b :=
  fun c hc hb => h c (List.mem_append_right a hc) hb

theorem onlyNl_split {l : List Char} (ho : onlyNl l) {r : List Char}
    (hd : l.dropWhile (fun c => !pyIsBreak c) = '\n' :: r) : onlyNl r := by
  have h2 : onlyNl ('\n' :: r) := by
    rw [← hd]
    intro c hc hb
    exact ho c ((List.dropWhile_sublist _).subset hc) hb
  exact fun c hc hb => h2 c (List.mem_cons_of_mem _ hc) hb

theorem mem_splitGo {c : Char} : ∀ {f l m}, m ∈ splitGo f l → c ∈ m → c ∈ l
  | 0, l, m, hm, _ => by
    rw [show splitGo 0 l = [] from rfl] at hm
    simp at hm
  | f + 1, l, m, hm, hc => by
    rcases hd : l.dropWhile (fun x => !pyIsBreak x) with _ | ⟨d, r⟩
    · rcases l with _ | ⟨a, ls⟩
      · rw [splitGo_nil] at hm
        simp at hm
      · rw [splitGo_drop_nil f (by simp) hd] at hm
        rcases List.mem_singleton.1 hm with rfl
        exact (List.takeWhile_sublist _).subset hc
    · rw [splitGo_drop_cons f hd] at hm
      rcases List.mem_cons.1 hm with rfl | hm2
      · exact (List.takeWhile_sublist _).subset hc
      · have hcr : c ∈ r := by
          have hrec := mem_splitGo hm2 hc
          by_cases hb : (d == '\r' && r.head? == some '\n') = true
          · rw [if_pos hb] at hrec
            exact (List.tail_sublist r).subset hrec
          · rwa [if_neg hb] at hrec
        have hdw : c ∈ l.dropWhile (fun x => !pyIsBreak x) :=
          hd ▸ List.mem_cons_of_mem d hcr
        exact (List.dropWhile_sublist _).subset hdw

theorem splitGo_no_break {c : Char} : ∀ {f l m}, m ∈ splitGo f l → c ∈ m →
    pyIsBreak c = false
  | 0, l, m, hm, _ => by
    rw [show splitGo 0 l = [] from rfl] at hm
    simp at hm
  | f + 1, l, m, hm, hc => by
    rcases hd : l.dropWhile (fun x => !pyIsBreak x) with _ | ⟨d, r⟩
    · rcases l with _ | ⟨a, ls⟩
      · rw [splitGo_nil] at hm
        simp at hm
      · rw [splitGo_drop_nil f (by simp) hd] at hm
        rcases List.mem_singleton.1 hm with rfl
        simpa using List.mem_takeWhile_imp hc
    · rw [splitGo_drop_cons f hd] at hm
      rcases List.mem_cons.1 hm with rfl | hm2
      · simpa using List.mem_takeWhile_imp hc
      · exact splitGo_no_break hm2 hc

theorem splitGo_ne_nil {l : List Char} (f : Nat) (hl : l ≠ []) :
    splitGo (f + 1) l ≠ [] := by
  rcases hd : l.dropWhile (fun x => !pyIsBreak x) with _ | ⟨d, r⟩
  · rw [splitGo_drop_nil f hl hd]
    simp
  · rw [splitGo_drop_cons f hd]
    simp

theorem splitGo_ne_nil2 {l : List Char} {f : Nat} (hl : l ≠ []) (hf : l.length ≤ f) :
    splitGo f l ≠ [] := by
  rcases f with _ | f2
  · exact absurd (List.length_eq_zero.1 (Nat.le_zero.1 hf)) hl
  · exact splitGo_ne_nil f2 hl

theorem splitGo_head {l : List Char} (f : Nat) (hl : l ≠ []) :
    (splitGo (f + 1) l).head? = some (l.takeWhile (fun c => !pyIsBreak c)) := by
  rcases hd : l.dropWhile (fun x => !pyIsBreak x) with _ | ⟨d, r⟩
  · rw [splitGo_drop_nil f hl hd]
    rfl
  · rw [splitGo_drop_cons f hd]
    rfl

/-- Interior lines (all but the first and the last) of the line split of
an `onlyNl`, `noBlankRun` text contain a non-whitespace character. -/
theorem splitGo_mid_any : ∀ {f l}, l.length ≤ f → onlyNl l → noBlankRun l = true →
    ∀ m ∈ ((splitGo f l).drop 1).dropLast, m.any (fun c => !pyIsSpace c) = true
  | 0, l, hf, _, _ => by
    rw [show splitGo 0 l = [] from rfl]
    simp
  | f + 1, l, hf, ho, hbr => by
    intro m hm
    rcases hd : l.dropWhile (fun x => !pyIsBreak x) with _ | ⟨d, r⟩
    · rcases l with _ | ⟨a, ls⟩
      · rw [splitGo_nil] at hm
        simp at hm
      · rw [splitGo_drop_nil f (by simp) hd] at hm
        simp at hm
    · have hdnl : d = '\n' := dropWhile_break_nl ho hd
      subst hdnl
      rw [splitGo_drop_nl f hd] at hm
      simp only [List.drop_succ_cons, List.drop_zero] at hm
      have hsplit : l = l.takeWhile (fun x => !pyIsBreak x) ++ '\n' :: r := by
        conv_lhs => rw [← List.takeWhile_append_dropWhile (fun x => !pyIsBreak x) l]
        rw [hd]
      have hor : onlyNl r := onlyNl_split ho hd
      have hbr2 : noBlankRun ('\n' :: r) = true := by
        rw [hsplit] at hbr
        exact noBlankRun_append_right hbr
      have hbrr : noBlankRun r = true := by
        rw [noBlankRun_cons_nl, Bool.and_eq_true] at hbr2
        exact hbr2.2
      have hlenr : r.length ≤ f := by
        have : l.length = (l.takeWhile (fun x => !pyIsBreak x)).length + (r.length + 1) := by
          conv_lhs => rw [hsplit]
          simp
        omega
      rcases hsg : splitGo f r with _ | ⟨s0, S2⟩
      · rw [hsg] at hm
        simp at hm
      · rw [hsg] at hm
        rcases S2 with _ | ⟨s1, S3⟩
        · simp at hm
        · rw [List.dropLast_cons_of_ne_nil (by simp)] at hm
          rcases List.mem_cons.1 hm with rfl | hm2
          · -- `m` is the first line of `r`; a blank first line would put a
            -- newline inside the whitespace run after the boundary newline
            rcases hfr : r with _ | ⟨b, rs⟩
            · rw [hfr] at hsg
              rw [splitGo_nil] at hsg
              simp at hsg
            · rcases f with _ | f2
              · rw [hfr] at hlenr
                simp at hlenr
              · have hhead := splitGo_head f2 (show r ≠ [] by rw [hfr]; simp)
                rw [hsg] at hhead
                simp only [List.head?_cons, Option.some_inj] at hhead
                subst hhead
                by_contra hany
                have hall : ∀ c ∈ r.takeWhile (fun x => !pyIsBreak x), pyIsSpace c = true := by
                  intro c hc
                  by_contra hcs
                  rw [Bool.not_eq_true] at hcs
                  exact hany (List.any_eq_true.2 ⟨c, hc, by simp [hcs]⟩)
                -- the second line exists, so `r` contains a break, i.e. a '\n'
                rcases hd2 : r.dropWhile (fun x => !pyIsBreak x) with _ | ⟨d2, r2⟩
                · rw [splitGo_drop_nil f2 (by rw [hfr]; simp) hd2] at hsg
                  simp at hsg
                · have hd2nl : d2 = '\n' := dropWhile_break_nl hor hd2
                  subst hd2nl
                  have hr2 : r = r.takeWhile (fun x => !pyIsBreak x) ++ '\n' :: r2 := by
                    conv_lhs => rw [← List.takeWhile_append_dropWhile (fun x => !pyIsBreak x) r]
                    rw [hd2]
                  have htws : r.takeWhile pyIsSpace =
                      r.takeWhile (fun x => !pyIsBreak x) ++ '\n' ::
                        ((r2).takeWhile pyIsSpace) := by
                    conv_lhs => rw [hr2]
                    rw [List.takeWhile_append_of_pos hall]
                    rw [List.takeWhile_cons_of_pos space_nl]
                  have hcontains : (r.takeWhile pyIsSpace).contains '\n' = true := by
                    rw [htws]
                    exact List.elem_iff.2 (List.mem_append_right _ (List.mem_cons_self _ _))
                  rw [noBlankRun_cons_nl, Bool.and_eq_true] at hbr2
                  rw [hcontains] at hbr2
                  simp at hbr2
          · have := splitGo_mid_any hlenr hor hbrr m ?_
            · exact this
            · rw [hsg]
              simp only [List.drop_succ_cons, List.drop_zero]
              exact hm2

/-! ### `joinNl` lemmas and the split/join round trip -/

theorem joinNl_cons {l : List Char} {ls : List (List Char)} (h : ls ≠ []) :
    joinNl (l :: ls) = l ++ '\n' :: joinNl ls := by
  cases ls with
  | nil => exact absurd rfl h
  | cons l2 ls2 => rfl

theorem mem_joinNl {c : Char} : ∀ {ls : List (List Char)}, c ∈ joinNl ls →
    c = '\n' ∨ ∃ l ∈ ls, c ∈ l
  | [], h => by simp [joinNl] at h
  | [l], h => Or.inr ⟨l, List.mem_singleton_self l, h⟩
  | l :: l2 :: ls, h => by
    rw [joinNl_cons (by simp)] at h
    rcases List.mem_append.1 h with h2 | h2
    · exact Or.inr ⟨l, List.mem_cons_self _ _, h2⟩
    · rcases List.mem_cons.1 h2 with rfl | h3
      · exact Or.inl rfl
      · rcases mem_joinNl h3 with h4 | ⟨l4, hl4, hc4⟩
        · exact Or.inl h4
        · exact Or.inr ⟨l4, List.mem_cons_of_mem _ hl4, hc4⟩

theorem joinNl_splitGo : ∀ {f l}, l.length ≤ f → onlyNl l → l.getLast? ≠ some '\n' →
    joinNl (splitGo f l) = l
  | 0, l, hf, _, _ => by
    have hl : l = [] := List.length_eq_zero.1 (Nat.le_zero.1 hf)
    subst hl
    rfl
  | f + 1, l, hf, ho, hlast => by
    rcases hd : l.dropWhile (fun x => !pyIsBreak x) with _ | ⟨d, r⟩
    · rcases hln : l with _ | ⟨a, ls⟩
      · rfl
      · rw [← hln]
        rw [splitGo_drop_nil f (by rw [hln]; simp) hd]
        have := List.takeWhile_append_dropWhile (fun x => !pyIsBreak x) l
        rw [hd, List.append_nil] at this
        exact this
    · have hdnl : d = '\n' := dropWhile_break_nl ho hd
      subst hdnl
      rw [splitGo_drop_nl f hd]
      have hsplit : l = l.takeWhile (fun x => !pyIsBreak x) ++ '\n' :: r := by
        conv_lhs => rw [← List.takeWhile_append_dropWhile (fun x => !pyIsBreak x) l]
        rw [hd]
      rcases hr : r with _ | ⟨b, rs⟩
      · subst hr
        rw [hsplit, List.getLast?_append] at hlast
        simp at hlast
      · rw [← hr]
        have hlenr : r.length ≤ f := by
          have h2 : l.length = (l.takeWhile (fun x => !pyIsBreak x)).length + (r.length + 1) := by
            conv_lhs => rw [hsplit]
            simp
          omega
        have hrne : r ≠ [] := by rw [hr]; simp
        rw [joinNl_cons (splitGo_ne_nil2 hrne hlenr)]
        have hlast2 : r.getLast? ≠ some '\n' := by
          intro hcon
          apply hlast
          rw [hsplit, List.getLast?_append]
          have hgl : ('\n' :: r).getLast? = some '\n' := by
            rw [hr] at hcon ⊢
            rw [List.getLast?_cons_cons]
            exact hcon
          rw [hgl]
          rfl
        rw [joinNl_splitGo hlenr (onlyNl_split ho hd) hlast2]
        exact hsplit.symm

/-- On adjacency-clean text with trimmed ends, every split line is
already stripped. -/
theorem splitGo_stripped : ∀ {f l}, l.length ≤ f → onlyNl l → adjOk l →
    noLeadTrailWs l → ∀ m ∈ splitGo f l, stripPy m = m
  | 0, l, _, _, _, _ => by
    rw [show splitGo 0 l = [] from rfl]
    simp
  | f + 1, l, hf, ho, hadj, hends => by
    intro m hm
    rcases hln : l with _ | ⟨a, ls⟩
    · subst hln
      rw [splitGo_nil] at hm
      simp at hm
    · have hlne : l ≠ [] := by rw [hln]; simp
      have hline : ∀ hne : l.takeWhile (fun x => !pyIsBreak x) ≠ [],
          stripPy (l.takeWhile (fun x => !pyIsBreak x)) =
            l.takeWhile (fun x => !pyIsBreak x) := by
        intro hne
        apply stripPy_eq_self
        constructor
        · have hh := List.head?_takeWhile (fun x => !pyIsBreak x) l
          rcases hl0 : l.head? with _ | a0
          · rw [hln] at hl0
            simp at hl0
          · rw [hl0] at hh
            have ha0 : pyIsSpace a0 = false := by
              have := hends.1
              rw [hl0] at this
              simpa using this
            have ha0b : (!pyIsBreak a0) = true := by
              simp only [Bool.not_eq_true']
              rw [Bool.eq_false_iff]
              intro hbr
              rw [pyIsSpace_of_pyIsBreak hbr] at ha0
              simp at ha0
            rw [hh]
            simp [Option.filter, ha0b, ha0]
        · rcases hd : l.dropWhile (fun x => !pyIsBreak x) with _ | ⟨d, r⟩
          · have heq := List.takeWhile_append_dropWhile (fun x => !pyIsBreak x) l
            rw [hd, List.append_nil] at heq
            rw [heq]
            exact hends.2
          · have hdnl : d = '\n' := dropWhile_break_nl ho hd
            subst hdnl
            have hsplit : l = l.takeWhile (fun x => !pyIsBreak x) ++ '\n' :: r := by
              conv_lhs => rw [← List.takeWhile_append_dropWhile (fun x => !pyIsBreak x) l]
              rw [hd]
            have hjunct := (List.chain'_append.1 (hsplit ▸ hadj)).2.2
            rcases hgl : (l.takeWhile (fun x => !pyIsBreak x)).getLast? with _ | x
            · rfl
            · have hp : pairOk x '\n' := hjunct x hgl '\n' (by simp)
              simpa using hp.2 rfl
      rcases hd : l.dropWhile (fun x => !pyIsBreak x) with _ | ⟨d, r⟩
      · rw [splitGo_drop_nil f hlne hd] at hm
        rcases List.mem_singleton.1 hm with rfl
        rcases htw : l.takeWhile (fun x => !pyIsBreak x) with _ | ⟨b, bs⟩
        · rfl
        · rw [← htw]
          exact hline (by rw [htw]; simp)
      · have hdnl : d = '\n' := dropWhile_break_nl ho hd
        subst hdnl
        rw [splitGo_drop_nl f hd] at hm
        have hsplit : l = l.takeWhile (fun x => !pyIsBreak x) ++ '\n' :: r := by
          conv_lhs => rw [← List.takeWhile_append_dropWhile (fun x => !pyIsBreak x) l]
          rw [hd]
        rcases List.mem_cons.1 hm with rfl | hm2
        · rcases htw : l.takeWhile (fun x => !pyIsBreak x) with _ | ⟨b, bs⟩
          · rfl
          · rw [← htw]
            exact hline (by rw [htw]; simp)
        · have hlenr : r.length ≤ f := by
            have h2 : l.length =
                (l.takeWhile (fun x => !pyIsBreak x)).length + (r.length + 1) := by
              conv_lhs => rw [hsplit]
              simp
            omega
          have hor : onlyNl r := onlyNl_split ho hd
          have hadjr : adjOk r := by
            apply adjOk_suffix hadj
            exact ⟨l.takeWhile (fun x => !pyIsBreak x) ++ ['\n'], by
              rw [List.append_assoc]
              exact hsplit.symm⟩
          have hchainr : List.Chain' pairOk ('\n' :: r) :=
            (List.chain'_append.1 (hsplit ▸ hadj)).2.1
          have hendsr : noLeadTrailWs r := by
            constructor
            · rcases hr0 : r.head? with _ | b
              · rfl
              · have hp : pairOk '\n' b := List.Chain'.rel_head? hchainr hr0
                simpa using hp.1 rfl
            · rcases hrn : r with _ | ⟨b, bs⟩
              · rfl
              · rw [← hrn]
                have hgll : l.getLast? = r.getLast? := by
                  rw [hsplit, List.getLast?_append]
                  have : ('\n' :: r).getLast? = r.getLast? := by
                    rw [hrn, List.getLast?_cons_cons]
                  rw [this]
                  rcases hglr : r.getLast? with _ | y
                  · rw [hrn] at hglr
                    simp at hglr
                  · rfl
                rw [← hgll]
                exact hends.2
          exact splitGo_stripped hlenr hor hadjr hendsr m hm2

theorem head?_joinNl_cons {l : List Char} {ls : List (List Char)} (hl : l ≠ []) :
    (joinNl (l :: ls)).head? = l.head? := by
  cases ls with
  | nil => rfl
  | cons l2 ls2 =>
    rw [joinNl_cons (by simp)]
    rcases l with _ | ⟨a, ar⟩
    · exact absurd rfl hl
    · rfl

/-- Join of newline-free, end-trimmed lines whose interior lines are
nonempty is adjacency-clean. -/
theorem adjOk_joinNl : ∀ (ls : List (List Char)),
    (∀ l ∈ ls, '\n' ∉ l ∧ noLeadTrailWs l) →
    (∀ l ∈ (ls.drop 1).dropLast, l ≠ []) →
    adjOk (joinNl ls)
  | [], _, _ => adjOk_nil
  | [l], h, _ => adjOk_of_no_nl (h l (List.mem_singleton_self l)).1
  | l :: l2 :: ls, h, hmid => by
    have hrest : adjOk (joinNl (l2 :: ls)) := by
      apply adjOk_joinNl (l2 :: ls) (fun m hm => h m (List.mem_cons_of_mem _ hm))
      intro m hm
      simp only [List.drop_succ_cons, List.drop_zero] at hm ⊢
      apply hmid
      simp only [List.drop_succ_cons, List.drop_zero]
      rcases ls with _ | ⟨l3, ls2⟩
      · simp at hm
      · rw [List.dropLast_cons_of_ne_nil (by simp)]
        exact List.mem_cons_of_mem l2 hm
    rw [joinNl_cons (by simp)]
    apply List.Chain'.append (adjOk_of_no_nl (h l (List.mem_cons_self _ _)).1)
    · rw [List.chain'_cons']
      refine ⟨?_, hrest⟩
      intro y hy
      rcases hl2 : l2 with _ | ⟨b, bs⟩
      · rcases ls with _ | ⟨l3, ls2⟩
        · rw [hl2] at hy
          simp [joinNl] at hy
        · exfalso
          apply hmid l2 ?_ hl2
          simp only [List.drop_succ_cons, List.drop_zero]
          rw [List.dropLast_cons_of_ne_nil (by simp)]
          exact List.mem_cons_self _ _
      · have hl2ne : l2 ≠ [] := by rw [hl2]; simp
        rw [head?_joinNl_cons hl2ne] at hy
        have hnl := (h l2 (List.mem_cons_of_mem _ (List.mem_cons_self _ _))).2.1
        rw [hy] at hnl
        exact pairOk_of_right (by simpa using hnl)
    · intro x hx y hy
      simp only [List.head?_cons, Option.mem_def, Option.some_inj] at hy
      subst hy
      have hends := (h l (List.mem_cons_self _ _)).2.2
      rw [hx] at hends
      exact pairOk_of_left (by simpa using hends)

/-! ### Master lemmas about `limpiar_texto` -/

theorem limpiar_texto_nil : limpiar_texto [] = [] := rfl

theorem limpiar_texto_eq {x : List Char} (hx : x ≠ []) :
    limpiar_texto x =
      stripPy (joinNl ((splitlinesPy (collapseBlank
        (x.filter (fun c => !pyCtrlRemovable c)))).map stripPy)) := by
  unfold limpiar_texto
  rw [if_neg hx]

/-- Claim C7 (amended), part 1: only characters of the removed class
disappear; nothing of that class survives in the output. -/
theorem limpiar_no_removable (x : List Char) :
    ∀ c ∈ limpiar_texto x, pyCtrlRemovable c = false := by
  intro c hc
  by_cases hx : x = []
  · subst hx
    rw [limpiar_texto_nil] at hc
    simp at hc
  · rw [limpiar_texto_eq hx] at hc
    have h3 := mem_stripPy hc
    rcases mem_joinNl h3 with rfl | ⟨l2, hl2, hcl⟩
    · exact newline_not_removable
    · rcases List.mem_map.1 hl2 with ⟨line, hline, rfl⟩
      have h4 : c ∈ line := mem_stripPy hcl
      have h5 := mem_splitGo hline h4
      rcases mem_collapseGo h5 with h6 | rfl
      · have := (List.mem_filter.1 h6).2
        simpa using this
      · exact newline_not_removable

/-- All line breaks in the output of the normalizer are `'\n'`. -/
theorem limpiar_onlyNl (x : List Char) : onlyNl (limpiar_texto x) := by
  intro c hc hbr
  by_cases hx : x = []
  · subst hx
    rw [limpiar_texto_nil] at hc
    simp at hc
  · rw [limpiar_texto_eq hx] at hc
    have h3 := mem_stripPy hc
    rcases mem_joinNl h3 with rfl | ⟨l2, hl2, hcl⟩
    · rfl
    · rcases List.mem_map.1 hl2 with ⟨line, hline, rfl⟩
      have h4 : c ∈ line := mem_stripPy hcl
      have h5 := splitGo_no_break hline h4
      rw [hbr] at h5
      simp at h5

theorem onlyNl_filter {x : List Char} (ho : onlyNl x) :
    onlyNl (x.filter (fun c => !pyCtrlRemovable c)) :=
  fun c hc hb => ho c (List.mem_filter.1 hc).1 hb

theorem onlyNl_collapseBlank {t : List Char} (ho : onlyNl t) :
    onlyNl (collapseBlank t) := by
  intro c hc hb
  rcases mem_collapseGo hc with h2 | rfl
  · exact ho c h2 hb
  · rfl

/-- Claim C7 (amended), part 2 (adjacency half): on `onlyNl` inputs no
whitespace character of the output sits next to a newline — in
particular no blank line survives and all lines are trimmed inside. -/
theorem adjOk_limpiar (x : List Char) (ho : onlyNl x) : adjOk (limpiar_texto x) := by
  by_cases hx : x = []
  · subst hx
    rw [limpiar_texto_nil]
    exact adjOk_nil
  · rw [limpiar_texto_eq hx]
    apply adjOk_stripPy
    have ho1 : onlyNl (x.filter (fun c => !pyCtrlRemovable c)) := onlyNl_filter ho
    have ho2 : onlyNl (collapseBlank (x.filter (fun c => !pyCtrlRemovable c))) :=
      onlyNl_collapseBlank ho1
    have hbr2 : noBlankRun (collapseBlank (x.filter (fun c => !pyCtrlRemovable c))) = true :=
      noBlankRun_collapseGo (le_refl _)
    apply adjOk_joinNl
    · intro l2 hl2
      rcases List.mem_map.1 hl2 with ⟨line, hline, rfl⟩
      constructor
      · intro hnl
        have := splitGo_no_break hline (mem_stripPy hnl)
        exact absurd this (by simp [pyIsBreak])
      · exact noLeadTrailWs_stripPy line
    · intro l2 hl2
      rw [← List.map_drop, ← List.map_dropLast] at hl2
      rcases List.mem_map.1 hl2 with ⟨m, hm, rfl⟩
      exact stripPy_ne_nil_of_any (splitGo_mid_any (le_refl _) ho2 hbr2 m hm)

theorem noLeadTrailWs_limpiar (x : List Char) : noLeadTrailWs (limpiar_texto x) := by
  by_cases hx : x = []
  · subst hx
    rw [limpiar_texto_nil]
    exact noLeadTrailWs_nil
  · rw [limpiar_texto_eq hx]
    exact noLeadTrailWs_stripPy _

/-- Claim C8 (amended): on inputs whose line breaks are all `'\n'`, the
normalizer is idempotent. -/
theorem limpiar_idem (x : List Char) (ho : onlyNl x) :
    limpiar_texto (limpiar_texto x) = limpiar_texto x := by
  by_cases hynil : limpiar_texto x = []
  · rw [hynil]
    exact limpiar_texto_nil
  · have hadj : adjOk (limpiar_texto x) := adjOk_limpiar x ho
    have hends : noLeadTrailWs (limpiar_texto x) := noLeadTrailWs_limpiar x
    have honl : onlyNl (limpiar_texto x) := limpiar_onlyNl x
    rw [limpiar_texto_eq hynil]
    rw [List.filter_eq_self.2 (fun c hc => by simp [limpiar_no_removable x c hc])]
    rw [show collapseBlank (limpiar_texto x) = limpiar_texto x from
      collapseGo_id_of_adjOk _ hadj]
    rw [show splitlinesPy (limpiar_texto x) =
      splitGo (limpiar_texto x).length (limpiar_texto x) from rfl]
    rw [List.map_congr_left
      (splitGo_stripped (le_refl _) honl hadj hends), List.map_id']
    have hlast : (limpiar_texto x).getLast? ≠ some '\n' := by
      intro hcon
      have h2 := hends.2
      rw [hcon] at h2
      simp [Option.all] at h2
      exact absurd h2 (by decide)
    rw [joinNl_splitGo (le_refl _) honl hlast]
    exact stripPy_eq_self hends

/-! ### Extractor-level lemmas -/

theorem firstSome_some : ∀ {l : List α} {f : α → Option β} {b : β},
    firstSome l f = some b → ∃ a ∈ l, f a = some b
  | [], _, _, h => by simp [firstSome] at h
  | a :: l2, f, b, h => by
    unfold firstSome at h
    rcases hfa : f a with _ | b2
    · rw [hfa] at h
      rcases firstSome_some h with ⟨a2, ha2, hfa2⟩
      exact ⟨a2, List.mem_cons_of_mem _ ha2, hfa2⟩
    · rw [hfa] at h
      refine ⟨a, List.mem_cons_self _ _, ?_⟩
      rw [hfa]
      exact h

theorem tryServAt_egreso {l : List Char} {s : Servicio} {rest : List Char}
    (h : tryServAt l = some (s, rest)) :
    s.fecha_egreso = none ∧ s.hora_egreso = none := by
  unfold tryServAt at h
  rcases hr : tryServRaw l with _ | rc
  · rw [hr] at h
    exact absurd h (by simp)
  · rw [hr] at h
    simp only [Option.map_some', Option.some_inj] at h
    rw [Prod.ext_iff] at h
    obtain ⟨hs, _⟩ := h
    simp only [] at hs
    rw [← hs]
    exact ⟨rfl, rfl⟩

/-- Claim C10 core: every record the services extractor emits has both
discharge fields equal to `None`. -/
theorem servScan_egreso : ∀ {f l} {s : Servicio}, s ∈ servScan f l →
    s.fecha_egreso = none ∧ s.hora_egreso = none
  | 0, l, s, h => by simp [servScan] at h
  | _ + 1, [], s, h => by simp [servScan] at h
  | f + 1, c :: rest, s, h => by
    rw [show servScan (f + 1) (c :: rest) =
      (match tryServAt (c :: rest) with
       | some (s0, restAfter) => s0 :: servScan f restAfter
       | none => servScan f rest) from rfl] at h
    rcases ht : tryServAt (c :: rest) with _ | ⟨s0, restAfter⟩
    · rw [ht] at h
      exact servScan_egreso h
    · rw [ht] at h
      rcases List.mem_cons.1 h with rfl | h2
      · exact tryServAt_egreso ht
      · exact servScan_egreso h2

theorem extraer_servicios_egreso ( texto : List Char) {s : Servicio}
    (h : s ∈ extraer_servicios_regex texto) :
    s.fecha_egreso = none ∧ s.hora_egreso = none :=
  servScan_egreso h

/-- ICD-10 shape `[A-Z]\d{2,3}` as a whole token. -/
def icdShapeB (t : List Char) : Bool :=
  match t with
  | [a, b, c] => isUpperAscii a && b.isDigit && c.isDigit
  | [a, b, c, d] => isUpperAscii a && b.isDigit && c.isDigit && d.isDigit
  | _ => false

/-- A position starts a (minimal) ICD-10 token: uppercase letter
followed by two digits. -/
def icdStartB (l : List Char) : Bool :=
  match l with
  | a :: b :: c :: _ => isUpperAscii a && b.isDigit && c.isDigit
  | _ => false

theorem icdAt_none_iff {l : List Char} : icdAt l = none ↔ icdStartB l = false := by
  rcases l with _ | ⟨a, _ | ⟨b, _ | ⟨c, r⟩⟩⟩
  · simp [icdAt, icdStartB]
  · simp [icdAt, icdStartB]
  · simp [icdAt, icdStartB]
  simp only [icdAt, icdStartB]
  by_cases hcond : (isUpperAscii a && b.isDigit && c.isDigit) = true
  · rw [if_pos hcond, hcond]
    rcases r with _ | ⟨d, r2⟩
    · simp
    · by_cases hd : d.isDigit <;> simp [hd]
  · rw [if_neg hcond]
    simp only [Bool.not_eq_true] at hcond
    rw [hcond]
    simp

theorem icdAt_some_spec {l t : List Char} (h : icdAt l = some t) :
    icdShapeB t = true ∧ ∃ post, l = t ++ post := by
  rcases l with _ | ⟨a, l2⟩
  · simp [icdAt] at h
  rcases l2 with _ | ⟨b, l3⟩
  · simp [icdAt] at h
  rcases l3 with _ | ⟨c, r⟩
  · simp [icdAt] at h
  simp only [icdAt] at h
  by_cases hcond : (isUpperAscii a && b.isDigit && c.isDigit) = true
  · rw [if_pos hcond] at h
    rcases r with _ | ⟨d, r2⟩
    · rcases Option.some_inj.1 h with rfl
      exact ⟨by simp [icdShapeB, hcond], [], rfl⟩
    · change (if d.isDigit = true then some [a, b, c, d] else some [a, b, c]) = some t at h
      by_cases hd : d.isDigit = true
      · rw [if_pos hd] at h
        rcases Option.some_inj.1 h with rfl
        refine ⟨?_, r2, rfl⟩
        simp only [icdShapeB, Bool.and_eq_true] at hcond ⊢
        exact ⟨⟨⟨hcond.1.1, hcond.1.2⟩, hcond.2⟩, hd⟩
      · rw [if_neg hd] at h
        rcases Option.some_inj.1 h with rfl
        exact ⟨by simp [icdShapeB, hcond], d :: r2, rfl⟩
  · rw [if_neg hcond] at h
    simp at h

theorem icdFirst_some_spec : ∀ {l t : List Char}, icdFirst l = some t →
    icdShapeB t = true ∧ ∃ pre post, l = pre ++ t ++ post ∧
      ∀ i < pre.length, icdStartB (l.drop i) = false
  | [], t, h => by simp [icdFirst] at h
  | c :: r, t, h => by
    rcases ha : icdAt (c :: r) with _ | t2
    · have h2 : icdFirst r = some t := by
        unfold icdFirst at h
        rw [ha] at h
        exact h
      obtain ⟨hshape, pre, post, hsplit, hleft⟩ := icdFirst_some_spec h2
      refine ⟨hshape, c :: pre, post, by rw [hsplit]; simp, ?_⟩
      intro i hi
      rcases i with _ | j
      · simpa using icdAt_none_iff.1 ha
      · rw [List.drop_succ_cons]
        exact hleft j (by simpa using hi)
    · have h2 : t2 = t := by
        unfold icdFirst at h
        rw [ha] at h
        exact Option.some_inj.1 h
      subst h2
      obtain ⟨hshape, post, hsplit⟩ := icdAt_some_spec ha
      exact ⟨hshape, [], post, by simpa using hsplit, by simp⟩

theorem icdFirst_none_spec : ∀ {l : List Char}, icdFirst l = none →
    ∀ i, icdStartB (l.drop i) = false
  | [], _, i => by
    rw [List.drop_nil]
    rfl
  | c :: r, h, i => by
    rcases ha : icdAt (c :: r) with _ | t2
    · have h2 : icdFirst r = none := by
        unfold icdFirst at h
        rw [ha] at h
        exact h
      rcases i with _ | j
      · simpa using icdAt_none_iff.1 ha
      · rw [List.drop_succ_cons]
        exact icdFirst_none_spec h2 j
    · exfalso
      unfold icdFirst at h
      rw [ha] at h
      exact absurd (show some t2 = none from h) (by simp)

/-- The record-construction fact of the diagnosis loop: every member of
the built list (beyond the accumulator) stores the leftmost ICD-shaped
search hit of its own description (or `''`), and the description is the
full stripped capture. -/
theorem diagBuild_codigo : ∀ (caps : List (List Char)) (acc : List Diagnostico)
    {d : Diagnostico}, d ∈ diagBuild acc caps →
    d ∈ acc ∨ d.codigo = (icdFirst d.descripcion).getD []
  | [], acc, d, h => Or.inl h
  | cap :: rest, acc, d, h => by
    rcases diagBuild_codigo rest (acc ++ [mkDiag acc.length (stripPy cap)]) h
      with h2 | h2
    · rcases List.mem_append.1 h2 with h3 | h3
      · exact Or.inl h3
      · rcases List.mem_singleton.1 h3 with rfl
        exact Or.inr rfl
    · exact Or.inr h2

/-- The `tipo` of the i-th record depends only on the position: the
append-loop tags index 0 as `principal` and the rest as `secundario`. -/
theorem diagBuild_tipo : ∀ (caps : List (List Char)) (acc : List Diagnostico)
    (i : Nat) {d : Diagnostico}, (diagBuild acc caps)[i]? = some d →
    acc[i]? = some d ∨ (acc.length ≤ i ∧
      d.tipo = if i = 0 then "principal".toList else "secundario".toList)
  | [], acc, i, d, h => Or.inl h
  | cap :: rest, acc, i, d, h => by
    rcases diagBuild_tipo rest (acc ++ [mkDiag acc.length (stripPy cap)]) i h
      with h2 | h2
    · rw [List.getElem?_append] at h2
      by_cases hi : i < acc.length
      · rw [if_pos hi] at h2
        exact Or.inl h2
      · have hge : acc.length ≤ i := Nat.le_of_not_lt hi
        rw [if_neg hi] at h2
        rcases hj : i - acc.length with _ | j
        · rw [hj] at h2
          have hd : mkDiag acc.length (stripPy cap) = d := by
            have h3 : some (mkDiag acc.length (stripPy cap)) = some d := h2
            exact Option.some_inj.1 h3
          refine Or.inr ⟨hge, ?_⟩
          rw [← hd]
          show (if acc.length = 0 then "principal".toList else "secundario".toList) = _
          by_cases h0 : i = 0
          · have ha0 : acc.length = 0 := by omega
            simp [h0, ha0]
          · have ha0 : ¬acc.length = 0 := by omega
            simp [h0, ha0]
        · rw [hj] at h2
          have h3 : ([] : List Diagnostico)[j]? = some d := h2
          simp at h3
    · obtain ⟨hlen, htipo⟩ := h2
      rw [List.length_append, List.length_singleton] at hlen
      exact Or.inr ⟨by omega, htipo⟩

/-! ### Stay-computation lemmas -/

/-- `calcular_dias_estancia` is `None` exactly on a parse failure of
either date — never because of the sign of the difference. -/
theorem calcular_none_iff (fecha_ingreso fecha_egreso : List Char) (formato : Fmt) :
    calcular_dias_estancia fecha_ingreso fecha_egreso formato = none ↔
      strptimePy formato fecha_ingreso = none ∨
        strptimePy formato fecha_egreso = none := by
  unfold calcular_dias_estancia
  rcases strptimePy formato fecha_ingreso with _ | a <;>
    rcases strptimePy formato fecha_egreso with _ | b <;> simp

theorem calcular_some {fecha_ingreso fecha_egreso : List Char} {formato : Fmt}
    {a b : DateTime} (ha : strptimePy formato fecha_ingreso = some a)
    (hb : strptimePy formato fecha_egreso = some b) :
    calcular_dias_estancia fecha_ingreso fecha_egreso formato =
      some (Int.fdiv (toMinutes b - toMinutes a) 1440) := by
  unfold calcular_dias_estancia
  rw [ha, hb]

theorem calcular_neg {fecha_ingreso fecha_egreso : List Char} {formato : Fmt}
    {a b : DateTime} (ha : strptimePy formato fecha_ingreso = some a)
    (hb : strptimePy formato fecha_egreso = some b)
    (hlt : toMinutes b < toMinutes a) :
    ∃ k : Int, calcular_dias_estancia fecha_ingreso fecha_egreso formato = some k ∧
      k < 0 := by
  refine ⟨Int.fdiv (toMinutes b - toMinutes a) 1440, calcular_some ha hb, ?_⟩
  exact Int.fdiv_neg' (by omega) (by norm_num)

/-! ## Concrete inputs for the claims -/

/-- End-to-end scenario text of the spec (section 8): patient block,
service block with attention type URGENCIAS, diagnosis line, medication
line with a `Via:` satellite within five lines. -/
def escenarioC3 : List Char :=
  ("CC 123456\n-- JUAN PEREZ Fec. Nacimiento: 01/01/1980\nSEDE DE ATENCION 01 HOSPITAL CENTRAL FOLIO 123 FECHA 10/01/2024 08:30:00 TIPO DE ATENCION : URGENCIAS\nDX: A09 GASTROENTERITIS\n2 ACETAMINOFEN 500MG\nVia: ORAL").toList

/-- Three diagnosis-labelled lines. -/
def tresDx : List Char :=
  ("DX: A01 FIEBRE TIFOIDEA\nDX: B20 ENFERMEDAD VIH\nDX: J18 NEUMONIA").toList

/-- A diagnosis line whose only code-shaped token is not leading. -/
def textoT12 : List Char := ("DX: DOLOR T12 IRRADIADO").toList

/-- Adversarial input without any recognizable header. -/
def textoSinEncabezados : List Char := ("sin encabezados 2024").toList

/-- Normalizer input with a tab kept and two carriage-return breaks. -/
def c7Bad : List Char := ("x\ty\r\rb").toList

/-- Well-behaved normalizer input: leading/trailing blanks, a blank-line
run, an embedded control character. -/
def c7Ok : List Char := ("  a b \n\n\n c \x01d").toList

/-- Input showing that carriage-return breaks defeat idempotence. -/
def c8Bad : List Char := ("a\r\rb").toList

/-- Newline-only input for the idempotence witness. -/
def c8Ok : List Char := (" hola \n\n  mundo  ").toList

/-- A single service-header line for the C10 witness. -/
def servTxt : List Char :=
  ("SEDE DE ATENCION 02 CLINICA NORTE FOLIO 77 FECHA 05/03/2024 10:15:00 TIPO DE ATENCION : HOSPITALIZACION").toList

/-! ## Claim theorems -/

/-- C1 (counterexample): with a parseable pair whose discharge is five
days before admission, `calcular_dias_estancia` returns `some (-5)` —
not `None` as the claim states for negative differences. -/
theorem claim_C1_counterexample :
    calcular_dias_estancia "15/01/2024".toList "10/01/2024".toList Fmt.dmy =
        some (-5) ∧
    (-5 : Int) < 0 ∧
    calcular_dias_estancia "15/01/2024".toList "10/01/2024".toList Fmt.dmy ≠
        none := by
  refine ⟨by decide, by decide, by decide⟩

/-- C1 (amended): `calcular_dias_estancia` returns `None` exactly when
either date fails to parse in the given format (it never raises — it is
a total function); a negative difference (discharge before admission) is
returned as a negative day count, not as `None`. -/
theorem claim_C1 :
    (∀ (fi fe : List Char) (fmt : Fmt),
      calcular_dias_estancia fi fe fmt = none ↔
        strptimePy fmt fi = none ∨ strptimePy fmt fe = none) ∧
    (∀ (fi fe : List Char) (fmt : Fmt) (a b : DateTime),
      strptimePy fmt fi = some a → strptimePy fmt fe = some b →
      toMinutes b < toMinutes a →
      ∃ k : Int, calcular_dias_estancia fi fe fmt = some k ∧ k < 0) :=
  ⟨calcular_none_iff, fun _ _ _ _ _ ha hb hlt => calcular_neg ha hb hlt⟩

/-- C1 witness: the amended claim applied at concrete inputs. -/
theorem claim_C1_witness :
    calcular_dias_estancia "basura".toList "10/01/2024".toList Fmt.dmy = none ∧
    (∃ k : Int, calcular_dias_estancia "15/01/2024".toList "10/01/2024".toList
        Fmt.dmy = some k ∧ k < 0) := by
  constructor
  · exact (claim_C1.1 _ _ _).2 (Or.inl (by decide))
  · exact claim_C1.2 _ _ _ ⟨2024, 1, 15, 0, 0⟩ ⟨2024, 1, 10, 0, 0⟩ (by decide)
      (by decide) (by decide)

/-- C2: the 2024-01-10 08:00 → 2024-01-15 10:00 stay is 5 whole days,
and for every pair of parseable stamps — in particular a discharge
textually earlier than the admission — the count is still computed (as
the floor of the minute difference over 1440), never an exception. -/
theorem claim_C2 :
    calcular_dias_estancia "2024-01-10 08:00".toList "2024-01-15 10:00".toList
        Fmt.ymdHM = some 5 ∧
    (∀ (fi fe : List Char) (fmt : Fmt) (a b : DateTime),
      strptimePy fmt fi = some a → strptimePy fmt fe = some b →
      calcular_dias_estancia fi fe fmt =
        some (Int.fdiv (toMinutes b - toMinutes a) 1440)) :=
  ⟨by decide, fun _ _ _ _ _ ha hb => calcular_some ha hb⟩

/-- C2 witness: the universal part applied to a reversed (discharge
before admission) pair. -/
theorem claim_C2_witness :
    calcular_dias_estancia "2024-01-15 10:00".toList "2024-01-10 08:00".toList
        Fmt.ymdHM =
      some (Int.fdiv
        (toMinutes ⟨2024, 1, 10, 8, 0⟩ - toMinutes ⟨2024, 1, 15, 10, 0⟩) 1440) :=
  claim_C2.2 _ _ _ _ _ (by decide) (by decide)

set_option maxRecDepth 100000

/-- C3 (code evaluation at the failing input): on the end-to-end
scenario text the pipeline extracts the patient document, the URGENCIAS
service and the principal A09 diagnosis as the claim requires, but the
medication list is empty — `extraer_medicamentos_regex` is a placeholder
returning `[]` — so no MedicationRecord with `cantidad = "2"`,
`dosis ⊇ "500MG"`, `via = "ORAL"` is ever produced. -/
theorem claim_C3 :
    (procesar_historia_regex escenarioC3).paciente.documento =
        some "123456".toList ∧
    (procesar_historia_regex escenarioC3).servicios.map
        (fun s => s.tipo_atencion) = ["URGENCIAS".toList] ∧
    (procesar_historia_regex escenarioC3).diagnosticos.map
        (fun d => (d.codigo, d.tipo)) = [("A09".toList, "principal".toList)] ∧
    (procesar_historia_regex escenarioC3).medicamentos = [] := by
  refine ⟨by decide, by decide, by decide, by decide⟩

/-- C4: for every input the first extracted diagnosis has `tipo`
"principal" and all later ones "secundario" (the loop decides by
position only, never by code value); on three diagnosis lines the tags
are exactly [principal, secundario, secundario]. -/
theorem claim_C4 :
    (∀ ( texto : List Char) (i : Nat) (d : Diagnostico),
      (extraer_diagnosticos_regex texto)[i]? = some d →
      d.tipo = if i = 0 then "principal".toList else "secundario".toList) ∧
    (extraer_diagnosticos_regex tresDx).map (fun d => d.tipo) =
      ["principal".toList, "secundario".toList, "secundario".toList] := by
  constructor
  · intro texto i d h
    rcases diagBuild_tipo (diagScan texto.length texto) [] i h with h2 | h2
    · simp at h2
    · exact h2.2
  · decide

/-- C4 witness: the positional rule applied to the second record of the
three-line example. -/
theorem claim_C4_witness :
    (⟨"B20".toList, "B20 ENFERMEDAD VIH".toList, "secundario".toList⟩ :
        Diagnostico).tipo =
      if 1 = 0 then "principal".toList else "secundario".toList :=
  claim_C4.1 tresDx 1 _ (by decide)

/-- C5 (counterexample): on `DX: DOLOR T12 IRRADIADO` the captured text
does not begin with a code-shaped token, yet `codigo = "T12"` (the
unanchored `re.search` finds it mid-description) and `descripcion` keeps
the code token — both directions of the claim fail. -/
theorem claim_C5_counterexample :
    (extraer_diagnosticos_regex textoT12).map
        (fun d => (d.codigo, d.descripcion)) =
      [("T12".toList, "DOLOR T12 IRRADIADO".toList)] ∧
    icdStartB ("DOLOR T12 IRRADIADO".toList) = false ∧
    "T12".toList ≠ [] := by
  refine ⟨by decide, by decide, by decide⟩

/-- C5 (amended): `codigo` is the leftmost code-shaped token found
anywhere in the captured text (empty when there is none), and
`descripcion` is the entire captured text with the code token not
removed. -/
theorem claim_C5 :
    ∀ ( texto : List Char) (d : Diagnostico),
      d ∈ extraer_diagnosticos_regex texto →
      (d.codigo = [] ∧ ∀ i, icdStartB (d.descripcion.drop i) = false) ∨
      (icdShapeB d.codigo = true ∧ ∃ pre post,
        d.descripcion = pre ++ d.codigo ++ post ∧
        ∀ i < pre.length, icdStartB (d.descripcion.drop i) = false) := by
  intro texto d h
  rcases diagBuild_codigo (diagScan texto.length texto) [] h with h2 | h2
  · simp at h2
  · rcases hf : icdFirst d.descripcion with _ | t
    · rw [hf] at h2
      exact Or.inl ⟨by simpa using h2, icdFirst_none_spec hf⟩
    · rw [hf] at h2
      have hct : d.codigo = t := by simpa using h2
      obtain ⟨hshape, pre, post, hsplit, hleft⟩ := icdFirst_some_spec hf
      refine Or.inr ⟨by rw [hct]; exact hshape, pre, post, ?_, hleft⟩
      rw [hct]
      exact hsplit

/-- C5 witness: the amended claim applied to the T12 record. -/
theorem claim_C5_witness :
    ((⟨"T12".toList, "DOLOR T12 IRRADIADO".toList, "principal".toList⟩ :
        Diagnostico).codigo = [] ∧
      ∀ i, icdStartB (("DOLOR T12 IRRADIADO".toList).drop i) = false) ∨
    (icdShapeB "T12".toList = true ∧ ∃ pre post,
      "DOLOR T12 IRRADIADO".toList = pre ++ "T12".toList ++ post ∧
      ∀ i < pre.length, icdStartB (("DOLOR T12 IRRADIADO".toList).drop i) = false) :=
  claim_C5 textoT12 _ (by decide)

/-- C6: the aggregator is total (a total function of the input text) and
always yields a `Historia` carrying all eleven entity keys — the record
type has exactly the eleven fields listed in `clavesHistoria`, in the
order of the Python dict literal; a no-match entity is an empty list
(or, for the patient, a mapping with no entries), never an absent key:
the eight placeholder extractors yield `[]` on every input, and both the
empty string and header-free adversarial text produce the fully empty
result. -/
theorem claim_C6 :
    (∀ ( texto : List Char),
      (procesar_historia_regex texto).medicamentos = [] ∧
      (procesar_historia_regex texto).procedimientos = [] ∧
      (procesar_historia_regex texto).cirugias = [] ∧
      (procesar_historia_regex texto).laboratorios = [] ∧
      (procesar_historia_regex texto).imagenes = [] ∧
      (procesar_historia_regex texto).interconsultas = [] ∧
      (procesar_historia_regex texto).evoluciones = [] ∧
      (procesar_historia_regex texto).altas = []) ∧
    clavesHistoria = ["paciente", "servicios", "diagnosticos", "medicamentos",
      "procedimientos", "cirugias", "laboratorios", "imagenes",
      "interconsultas", "evoluciones", "altas"] ∧
    clavesHistoria.length = 11 ∧
    procesar_historia_regex [] = historiaVacia ∧
    procesar_historia_regex textoSinEncabezados = historiaVacia := by
  refine ⟨fun texto => ⟨rfl, rfl, rfl, rfl, rfl, rfl, rfl, rfl⟩, rfl, rfl,
    by decide, by decide⟩

/-- C7 (counterexample): on `"x\ty\r\rb"` the output is `"x\ty\n\nb"` —
the tab, a control character other than newline, is not removed, and the
blank line between the two carriage-return breaks survives (the
collapse step ran before the breaks became newlines). -/
theorem claim_C7_counterexample :
    limpiar_texto c7Bad = ("x\ty\n\nb").toList ∧
    ¬(∀ c ∈ limpiar_texto c7Bad, (c.toNat ≤ 31 ∨ c.toNat = 127) → c = '\n') ∧
    ¬adjOk (limpiar_texto c7Bad) := by
  refine ⟨by decide, by decide, by decide⟩

/-- C7 (amended): `limpiar_texto` never fails (it is a total function);
null/empty input yields the empty string; exactly the characters of the
class `\x00-\x08 \x0b \x0c \x0e-\x1f \x7f` are removed (tab and carriage
return are kept); the output never starts or ends in whitespace; and on
inputs whose line breaks are all `\n`, no whitespace sits next to a
newline in the output — every blank-line run is collapsed to one newline
and every line is trimmed. -/
theorem claim_C7 :
    limpiar_texto [] = [] ∧ limpiar_texto_opt none = [] ∧
    (∀ (x : List Char), ∀ c ∈ limpiar_texto x, pyCtrlRemovable c = false) ∧
    (∀ (x : List Char), noLeadTrailWs (limpiar_texto x)) ∧
    (∀ (x : List Char), onlyNl x → adjOk (limpiar_texto x)) :=
  ⟨rfl, rfl, limpiar_no_removable, noLeadTrailWs_limpiar, adjOk_limpiar⟩

/-- C7 witness: the `onlyNl` hypothesis discharged at a concrete dirty
input. -/
theorem claim_C7_witness :
    onlyNl c7Ok ∧ adjOk (limpiar_texto c7Ok) ∧
    noLeadTrailWs (limpiar_texto c7Ok) ∧
    (∀ c ∈ limpiar_texto c7Ok, pyCtrlRemovable c = false) :=
  ⟨by decide, claim_C7.2.2.2.2 c7Ok (by decide), claim_C7.2.2.2.1 c7Ok,
    fun c hc => claim_C7.2.2.1 c7Ok c hc⟩

/-- C8 (counterexample): `limpiar_texto` is not idempotent — on
`"a\r\rb"` the first pass yields `"a\n\nb"` and the second collapses it
further to `"a\nb"`. -/
theorem claim_C8_counterexample :
    limpiar_texto (limpiar_texto c8Bad) ≠ limpiar_texto c8Bad := by decide

/-- C8 (amended): on every input whose line-break characters are all
`\n`, running the normalizer twice yields the same output as once. -/
theorem claim_C8 :
    ∀ (x : List Char), onlyNl x →
      limpiar_texto (limpiar_texto x) = limpiar_texto x :=
  limpiar_idem

/-- C8 witness: idempotence at a concrete newline-only input. -/
theorem claim_C8_witness :
    onlyNl c8Ok ∧ limpiar_texto (limpiar_texto c8Ok) = limpiar_texto c8Ok :=
  ⟨by decide, claim_C8 c8Ok (by decide)⟩

/-- C9: for every nonempty date string that does not parse in the input
format, `formatear_fecha` returns the input verbatim (the `ValueError`
is caught and logged, never propagated; the function is total). -/
theorem claim_C9 :
    ∀ (s : List Char) (fin fout : Fmt), s ≠ [] → strptimePy fin s = none →
      formatear_fecha s fin fout = s := by
  intro s fin fout hne hp
  unfold formatear_fecha
  rw [if_neg hne, hp]

/-- C9 witness: an impossible calendar date is returned verbatim. -/
theorem claim_C9_witness :
    "31/02/2024".toList ≠ [] ∧
    strptimePy Fmt.dmy "31/02/2024".toList = none ∧
    formatear_fecha "31/02/2024".toList Fmt.dmy Fmt.ymd = "31/02/2024".toList :=
  ⟨by decide, by decide, claim_C9 _ Fmt.dmy Fmt.ymd (by decide) (by decide)⟩

/-- C10: every record produced by the services extractor has
`fecha_egreso = None` and `hora_egreso = None`, for every input text —
the pattern never populates the discharge fields. -/
theorem claim_C10 :
    ∀ ( texto : List Char) (s : Servicio), s ∈ extraer_servicios_regex texto →
      s.fecha_egreso = none ∧ s.hora_egreso = none :=
  fun texto _ h => extraer_servicios_egreso texto h

/-- C10 witness: the invariant applied to the record extracted from a
concrete service-header line. -/
theorem claim_C10_witness :
    (⟨"02".toList, "CLINICA NORTE".toList, "05/03/2024".toList,
      "10:15:00".toList, "HOSPITALIZACION".toList, none, none⟩ :
        Servicio).fecha_egreso = none ∧
    (⟨"02".toList, "CLINICA NORTE".toList, "05/03/2024".toList,
      "10:15:00".toList, "HOSPITALIZACION".toList, none, none⟩ :
        Servicio).hora_egreso = none :=
  claim_C10 servTxt _ (by decide)
